import Mathlib

/-!
Shallow embedding of the transportation-problem solver in `src/OR.py`
(`TransportationSolver`): problem balancing, the three allocation
heuristics (north-west corner, least cost, Vogel approximation), and the
cost evaluator, together with proofs of the specified properties.

Matrices and vectors are embedded as functions out of `Nat` with explicit
dimensions `m`, `n`; python lists' in-place mutation becomes functional
update, and each `while` loop becomes a fuel-based recursion (the fuel is
shown to be sufficient in the theorems that need termination).
Quantities and costs are integers, as in the repository's data.
-/

set_option maxHeartbeats 1000000

namespace TransportOR

/-- Marker for `self.dummy_type` in `OR.py` (`None`, `"supply"` or `"demand"`
is modelled as `Option DummyType`). -/
inductive DummyType where
  | demand
  | supply
deriving DecidableEq, Repr

/-- The solver's data after construction: `m`, `n`, cost matrix, supply,
demand and the recorded dummy type, mirroring the fields set by
`TransportationSolver.__init__` / `_balance_problem`. -/
structure Solver where
  m : Nat
  n : Nat
  cost : Nat → Nat → Int
  supply : Nat → Int
  demand : Nat → Int
  dummy_type : Option DummyType

/-- Sum of the first `k` entries of a vector (python's `sum(xs)`). -/
def sumR (f : Nat → Int) (k : Nat) : Int := ∑ i in Finset.range k, f i

/-- Embedding of `TransportationSolver.__init__` together with
`_balance_problem`: compares total supply with total demand and appends a
zero-cost dummy column (resp. row) whose demand (resp. supply) is the
difference. -/
def balance_problem (cost : Nat → Nat → Int) (supply demand : Nat → Int)
    (m n : Nat) : Solver :=
  let total_supply := sumR supply m
  let total_demand := sumR demand n
  if total_demand < total_supply then
    ⟨m, n + 1, fun i j => if j = n then 0 else cost i j, supply,
      fun j => if j = n then total_supply - total_demand else demand j,
      some DummyType.demand⟩
  else if total_supply < total_demand then
    ⟨m + 1, n, fun i j => if i = m then 0 else cost i j,
      fun i => if i = m then total_demand - total_supply else supply i,
      demand, some DummyType.supply⟩
  else
    ⟨m, n, cost, supply, demand, none⟩

theorem sumR_succ (f : Nat → Int) (k : Nat) : sumR f (k + 1) = sumR f k + f k := by
  simp [sumR, Finset.sum_range_succ]

theorem sumR_congr {f g : Nat → Int} (k : Nat) (h : ∀ i < k, f i = g i) :
    sumR f k = sumR g k := by
  unfold sumR
  exact Finset.sum_congr rfl fun i hi => h i (Finset.mem_range.mp hi)

theorem balance_problem_gt {cost : Nat → Nat → Int} {supply demand : Nat → Int} {m n : Nat}
    (h : sumR demand n < sumR supply m) :
    balance_problem cost supply demand m n =
      ⟨m, n + 1, fun i j => if j = n then 0 else cost i j, supply,
        fun j => if j = n then sumR supply m - sumR demand n else demand j,
        some DummyType.demand⟩ := by
  simp [balance_problem, h]

theorem balance_problem_lt {cost : Nat → Nat → Int} {supply demand : Nat → Int} {m n : Nat}
    (h : sumR supply m < sumR demand n) :
    balance_problem cost supply demand m n =
      ⟨m + 1, n, fun i j => if i = m then 0 else cost i j,
        fun i => if i = m then sumR demand n - sumR supply m else supply i,
        demand, some DummyType.supply⟩ := by
  have h1 : ¬ sumR demand n < sumR supply m := not_lt_of_gt h
  simp [balance_problem, h, h1]

theorem balance_problem_eq {cost : Nat → Nat → Int} {supply demand : Nat → Int} {m n : Nat}
    (h : sumR supply m = sumR demand n) :
    balance_problem cost supply demand m n = ⟨m, n, cost, supply, demand, none⟩ := by
  simp [balance_problem, h]

/-- C2: after balancing, total supply equals total demand; the dummy kind is
`demand` iff original total supply exceeded total demand (one extra
destination holding the difference, a zero-cost entry in every row),
`supply` iff original total demand exceeded total supply (one extra source,
a zero-cost row), and `none` (no change at all) iff the totals were equal. -/
theorem C2_balance (cost : Nat → Nat → Int) (supply demand : Nat → Int) (m n : Nat) :
    (sumR (balance_problem cost supply demand m n).supply
        (balance_problem cost supply demand m n).m =
      sumR (balance_problem cost supply demand m n).demand
        (balance_problem cost supply demand m n).n)
    ∧ ((balance_problem cost supply demand m n).dummy_type = some DummyType.demand ↔
        sumR demand n < sumR supply m)
    ∧ ((balance_problem cost supply demand m n).dummy_type = some DummyType.demand →
        (balance_problem cost supply demand m n).m = m
        ∧ (balance_problem cost supply demand m n).n = n + 1
        ∧ (balance_problem cost supply demand m n).demand n = sumR supply m - sumR demand n
        ∧ (∀ j < n, (balance_problem cost supply demand m n).demand j = demand j)
        ∧ (∀ i, (balance_problem cost supply demand m n).cost i n = 0)
        ∧ (∀ i, ∀ j < n, (balance_problem cost supply demand m n).cost i j = cost i j)
        ∧ (balance_problem cost supply demand m n).supply = supply)
    ∧ ((balance_problem cost supply demand m n).dummy_type = some DummyType.supply ↔
        sumR supply m < sumR demand n)
    ∧ ((balance_problem cost supply demand m n).dummy_type = some DummyType.supply →
        (balance_problem cost supply demand m n).m = m + 1
        ∧ (balance_problem cost supply demand m n).n = n
        ∧ (balance_problem cost supply demand m n).supply m = sumR demand n - sumR supply m
        ∧ (∀ i < m, (balance_problem cost supply demand m n).supply i = supply i)
        ∧ (∀ j, (balance_problem cost supply demand m n).cost m j = 0)
        ∧ (∀ j, ∀ i < m, (balance_problem cost supply demand m n).cost i j = cost i j)
        ∧ (balance_problem cost supply demand m n).demand = demand)
    ∧ ((balance_problem cost supply demand m n).dummy_type = none ↔
        sumR supply m = sumR demand n)
    ∧ ((balance_problem cost supply demand m n).dummy_type = none →
        balance_problem cost supply demand m n = ⟨m, n, cost, supply, demand, none⟩) := by
  rcases lt_trichotomy (sumR demand n) (sumR supply m) with h1 | h1 | h1
  · rw [balance_problem_gt h1]
    have hext : sumR (fun j => if j = n then sumR supply m - sumR demand n else demand j) n
        = sumR demand n := sumR_congr n (fun i hi => by simp [Nat.ne_of_lt hi])
    refine ⟨?_, ?_, ?_, ?_, ?_, ?_, ?_⟩
    · show sumR supply m = sumR _ (n + 1)
      rw [sumR_succ, hext]; simp
    · simpa using h1
    · intro _
      refine ⟨rfl, rfl, by simp, fun j hj => by simp [Nat.ne_of_lt hj], fun i => by simp,
        fun i j hj => by simp [Nat.ne_of_lt hj], rfl⟩
    · simp; omega
    · intro h; simp at h
    · simp; omega
    · intro h; simp at h
  · rw [balance_problem_eq h1.symm]
    refine ⟨h1.symm, by simpa using (by omega : ¬ sumR demand n < sumR supply m), ?_,
      by simpa using (by omega : ¬ sumR supply m < sumR demand n), ?_, by simpa using h1.symm,
      fun _ => rfl⟩
    · intro h; simp at h
    · intro h; simp at h
  · rw [balance_problem_lt h1]
    have hext : sumR (fun i => if i = m then sumR demand n - sumR supply m else supply i) m
        = sumR supply m := sumR_congr m (fun i hi => by simp [Nat.ne_of_lt hi])
    refine ⟨?_, ?_, ?_, ?_, ?_, ?_, ?_⟩
    · show sumR _ (m + 1) = sumR demand n
      rw [sumR_succ, hext]; simp
    · simp; omega
    · intro h; simp at h
    · simpa using h1
    · intro _
      refine ⟨rfl, rfl, by simp, fun i hi => by simp [Nat.ne_of_lt hi], fun j => by simp,
        fun j i hi => by simp [Nat.ne_of_lt hi], rfl⟩
    · simp; omega
    · intro h; simp at h

/-- Working allocation state of one solve: the allocation matrix `alloc`
(initially all zero) and the working copies `s`, `d` of supply and demand,
as created at the top of each `solve_*` method. -/
structure St where
  alloc : Nat → Nat → Int
  s : Nat → Int
  d : Nat → Int

/-- One step record of a solve: chosen source, chosen destination, allocated
quantity and the state snapshot after the step (the data passed to
`_print_step_table`). -/
structure Step where
  src : Nat
  dst : Nat
  qty : Int
  after : St

/-- Point update of a matrix (python `alloc[i][j] = v`). -/
def upd2 (f : Nat → Nat → Int) (i j : Nat) (v : Int) : Nat → Nat → Int :=
  Function.update f i (Function.update (f i) j v)

/-- The common allocation step of all three methods:
`x = min(s[i], d[j]); alloc[i][j] = x; s[i] -= x; d[j] -= x`. -/
def applyAt (st : St) (i j : Nat) : St :=
  ⟨upd2 st.alloc i j (min (st.s i) (st.d j)),
   Function.update st.s i (st.s i - min (st.s i) (st.d j)),
   Function.update st.d j (st.d j - min (st.s i) (st.d j))⟩

/-- Fresh state at the start of each solve: zero allocations and the working
copies `s = self.supply[:]`, `d = self.demand[:]`. -/
def initSt (sv : Solver) : St := ⟨fun _ _ => 0, sv.supply, sv.demand⟩

theorem upd2_apply (f : Nat → Nat → Int) (i j : Nat) (v : Int) (a b : Nat) :
    upd2 f i j v a b = if a = i ∧ b = j then v else f a b := by
  by_cases ha : a = i
  · subst ha
    by_cases hb : b = j
    · subst hb; simp [upd2]
    · simp [upd2, hb, Function.update_apply]
  · simp [upd2, ha, Function.update_apply]

theorem upd2_col (f : Nat → Nat → Int) (i j : Nat) (v : Int) :
    (fun a => upd2 f i j v a j) = Function.update (fun a => f a j) i v := by
  funext a
  by_cases ha : a = i <;> simp [upd2_apply, ha, Function.update_apply]

theorem applyAt_alloc (st : St) (i j a b : Nat) :
    (applyAt st i j).alloc a b =
      if a = i ∧ b = j then min (st.s i) (st.d j) else st.alloc a b :=
  upd2_apply _ _ _ _ _ _

theorem applyAt_s (st : St) (i j k : Nat) :
    (applyAt st i j).s k =
      if k = i then st.s i - min (st.s i) (st.d j) else st.s k := by
  simp [applyAt, Function.update_apply]

theorem applyAt_d (st : St) (i j k : Nat) :
    (applyAt st i j).d k =
      if k = j then st.d j - min (st.s i) (st.d j) else st.d k := by
  simp [applyAt, Function.update_apply]

/-- After a step, the stepped row or the stepped column is exhausted
(`x = min(s[i], d[j])` always zeroes one of the two). -/
theorem applyAt_zeroes (st : St) (i j : Nat) :
    (applyAt st i j).s i = 0 ∨ (applyAt st i j).d j = 0 := by
  rcases min_choice (st.s i) (st.d j) with h | h
  · left; rw [applyAt_s, if_pos rfl, h]; ring
  · right; rw [applyAt_d, if_pos rfl, h]; ring

/-- Remaining supply and demand are non-negative (within range). -/
def Nonneg (sv : Solver) (st : St) : Prop :=
  (∀ i < sv.m, 0 ≤ st.s i) ∧ (∀ j < sv.n, 0 ≤ st.d j)

/-- All allocation entries are non-negative. -/
def AllocNonneg (st : St) : Prop := ∀ i j, 0 ≤ st.alloc i j

/-- Row conservation: remaining supply plus allocated row total equals the
original supply of the row. -/
def RowCons (sv : Solver) (st : St) : Prop :=
  ∀ i < sv.m, st.s i + ∑ j in Finset.range sv.n, st.alloc i j = sv.supply i

/-- Column conservation: remaining demand plus allocated column total equals
the original demand of the column. -/
def ColCons (sv : Solver) (st : St) : Prop :=
  ∀ j < sv.n, st.d j + ∑ i in Finset.range sv.m, st.alloc i j = sv.demand j

/-- A nonzero cell lies in an exhausted row or column; in particular a cell
whose row and column both still have remaining quantity holds 0. -/
def CellZero (st : St) : Prop := ∀ i j, st.alloc i j ≠ 0 → st.s i = 0 ∨ st.d j = 0

theorem applyAt_nonneg {sv : Solver} {st : St} (i j : Nat) (h : Nonneg sv st) :
    Nonneg sv (applyAt st i j) := by
  constructor
  · intro k hk
    rw [applyAt_s]
    by_cases hki : k = i
    · rw [if_pos hki]
      have := min_le_left (st.s i) (st.d j)
      omega
    · rw [if_neg hki]; exact h.1 k hk
  · intro k hk
    rw [applyAt_d]
    by_cases hkj : k = j
    · rw [if_pos hkj]
      have := min_le_right (st.s i) (st.d j)
      omega
    · rw [if_neg hkj]; exact h.2 k hk

theorem applyAt_allocNonneg {st : St} {i j : Nat} (hsi : 0 ≤ st.s i) (hdj : 0 ≤ st.d j)
    (h : AllocNonneg st) : AllocNonneg (applyAt st i j) := by
  intro a b
  rw [applyAt_alloc]
  by_cases hab : a = i ∧ b = j
  · rw [if_pos hab]; exact le_min hsi hdj
  · rw [if_neg hab]; exact h a b

theorem applyAt_rowCons {sv : Solver} {st : St} {i j : Nat} (hjn : j < sv.n)
    (hz : st.alloc i j = 0) (h : RowCons sv st) : RowCons sv (applyAt st i j) := by
  intro a ham
  by_cases hai : a = i
  · subst hai
    have hrow : ∀ b, (applyAt st a j).alloc a b = Function.update (st.alloc a) j
        (min (st.s a) (st.d j)) b := by
      intro b
      rw [applyAt_alloc, Function.update_apply]
      by_cases hb : b = j <;> simp [hb]
    have hsum : ∑ b in Finset.range sv.n, (applyAt st a j).alloc a b
        = min (st.s a) (st.d j) + ∑ b in Finset.range sv.n \ {j}, st.alloc a b := by
      rw [Finset.sum_congr rfl fun b _ => hrow b]
      exact Finset.sum_update_of_mem (Finset.mem_range.mpr hjn) _ _
    have hsplit : ∑ b in Finset.range sv.n, st.alloc a b
        = ∑ b in Finset.range sv.n \ {j}, st.alloc a b + st.alloc a j :=
      Finset.sum_eq_sum_diff_singleton_add (Finset.mem_range.mpr hjn) _
    have hgoal := h a ham
    rw [applyAt_s, if_pos rfl, hsum]
    rw [hsplit, hz] at hgoal
    omega
  · have hrow : ∀ b, (applyAt st i j).alloc a b = st.alloc a b := by
      intro b
      rw [applyAt_alloc, if_neg (by tauto)]
    rw [applyAt_s, if_neg hai, Finset.sum_congr rfl fun b _ => hrow b]
    exact h a ham

theorem applyAt_colCons {sv : Solver} {st : St} {i j : Nat} (him : i < sv.m)
    (hz : st.alloc i j = 0) (h : ColCons sv st) : ColCons sv (applyAt st i j) := by
  intro b hbn
  by_cases hbj : b = j
  · subst hbj
    have hcol : ∀ a, (applyAt st i b).alloc a b = Function.update (fun a => st.alloc a b) i
        (min (st.s i) (st.d b)) a := by
      intro a
      rw [applyAt_alloc, Function.update_apply]
      by_cases ha : a = i <;> simp [ha]
    have hsum : ∑ a in Finset.range sv.m, (applyAt st i b).alloc a b
        = min (st.s i) (st.d b) + ∑ a in Finset.range sv.m \ {i}, st.alloc a b := by
      rw [Finset.sum_congr rfl fun a _ => hcol a]
      exact Finset.sum_update_of_mem (Finset.mem_range.mpr him) _ _
    have hsplit : ∑ a in Finset.range sv.m, st.alloc a b
        = ∑ a in Finset.range sv.m \ {i}, st.alloc a b + st.alloc i b :=
      Finset.sum_eq_sum_diff_singleton_add (Finset.mem_range.mpr him) _
    have hgoal := h b hbn
    rw [applyAt_d, if_pos rfl, hsum]
    rw [hsplit, hz] at hgoal
    omega
  · have hcol : ∀ a, (applyAt st i j).alloc a b = st.alloc a b := by
      intro a
      rw [applyAt_alloc, if_neg (by tauto)]
    rw [applyAt_d, if_neg hbj, Finset.sum_congr rfl fun a _ => hcol a]
    exact h b hbn

theorem applyAt_cellZero {sv : Solver} {st : St} {i j : Nat} (him : i < sv.m) (hjn : j < sv.n)
    (hnn : Nonneg sv st) (h : CellZero st) : CellZero (applyAt st i j) := by
  intro a b hab
  by_cases hai : a = i
  · by_cases hbj : b = j
    · subst hai; subst hbj; exact applyAt_zeroes st a b
    · subst hai
      rw [applyAt_alloc, if_neg (by tauto)] at hab
      rcases h a b hab with hs | hd
      · left
        rw [applyAt_s, if_pos rfl, hs]
        have h0 : min (st.s a) (st.d j) = 0 := by
          have h1 := hnn.2 j hjn
          rw [hs]
          omega
        omega
      · right
        rw [applyAt_d, if_neg hbj]
        exact hd
  · by_cases hbj : b = j
    · subst hbj
      rw [applyAt_alloc, if_neg (by tauto)] at hab
      rcases h a b hab with hs | hd
      · left
        rw [applyAt_s, if_neg hai]
        exact hs
      · right
        rw [applyAt_d, if_pos rfl, hd]
        have h1 := hnn.1 i him
        have h0 : min (st.s i) (st.d b) = 0 := by rw [hd]; omega
        omega
    · rw [applyAt_alloc, if_neg (by tauto)] at hab
      rcases h a b hab with hs | hd
      · left; rw [applyAt_s, if_neg hai]; exact hs
      · right; rw [applyAt_d, if_neg hbj]; exact hd

theorem applyAt_s_le {st : St} {i j : Nat} (hsi : 0 ≤ st.s i) (hdj : 0 ≤ st.d j) :
    ∀ k, (applyAt st i j).s k ≤ st.s k := by
  intro k
  rw [applyAt_s]
  by_cases hk : k = i
  · subst hk
    rw [if_pos rfl]
    have : 0 ≤ min (st.s k) (st.d j) := le_min hsi hdj
    omega
  · rw [if_neg hk]

theorem applyAt_d_le {st : St} {i j : Nat} (hsi : 0 ≤ st.s i) (hdj : 0 ≤ st.d j) :
    ∀ k, (applyAt st i j).d k ≤ st.d k := by
  intro k
  rw [applyAt_d]
  by_cases hk : k = j
  · subst hk
    rw [if_pos rfl]
    have : 0 ≤ min (st.s i) (st.d k) := le_min hsi hdj
    omega
  · rw [if_neg hk]

theorem applyAt_alloc_ge {st : St} {i j : Nat} (hz : st.alloc i j = 0)
    (hsi : 0 ≤ st.s i) (hdj : 0 ≤ st.d j) :
    ∀ a b, st.alloc a b ≤ (applyAt st i j).alloc a b := by
  intro a b
  rw [applyAt_alloc]
  by_cases hab : a = i ∧ b = j
  · rw [if_pos hab, hab.1, hab.2, hz]
    exact le_min hsi hdj
  · rw [if_neg hab]

/-- Cursor advance of `solve_nwc` after an allocation: if both the row and
the column are exhausted, move right when a column remains, else down; else
if only the row is exhausted move down; else if only the column is exhausted
move right (otherwise the cursor stays, as in the source, where no branch
fires). -/
def nwcAdvance (n : Nat) (s d : Nat → Int) (i j : Nat) : Nat × Nat :=
  if s i = 0 ∧ d j = 0 then (if j + 1 < n then (i, j + 1) else (i + 1, j))
  else if s i = 0 then (i + 1, j)
  else if d j = 0 then (i, j + 1)
  else (i, j)

/-- The `while i < self.m and j < self.n` loop of `solve_nwc`, with explicit
fuel; returns the step records, the final state and the final cursor. -/
def nwcGo (sv : Solver) : Nat → Nat → Nat → St → List Step × St × Nat × Nat
  | 0, i, j, st => ([], st, i, j)
  | fuel + 1, i, j, st =>
    if i < sv.m ∧ j < sv.n then
      let st' := applyAt st i j
      let c := nwcAdvance sv.n st'.s st'.d i j
      let rest := nwcGo sv fuel c.1 c.2 st'
      (⟨i, j, min (st.s i) (st.d j), st'⟩ :: rest.1, rest.2)
    else ([], st, i, j)

/-- Embedding of `solve_nwc`: cursor starts at `(0, 0)`; `m + n` fuel is
enough because the cursor advances at every iteration. -/
def solve_nwc (sv : Solver) : List Step × St × Nat × Nat :=
  nwcGo sv (sv.m + sv.n) 0 0 (initSt sv)

/-- The step records of a solve, chained from a starting state: every record
allocates `min(s[i], d[j])` at an in-range cell whose allocation entry was
still 0, and snapshots the state after the step. -/
def stepsOk (sv : Solver) : St → List Step → Prop
  | _, [] => True
  | st, r :: rs => r.src < sv.m ∧ r.dst < sv.n ∧ st.alloc r.src r.dst = 0 ∧
      r.qty = min (st.s r.src) (st.d r.dst) ∧ r.after = applyAt st r.src r.dst ∧
      stepsOk sv r.after rs

/-- State at the end of a step sequence. -/
def endSt (st : St) (tr : List Step) : St := tr.foldl (fun _ r => r.after) st

@[simp] theorem endSt_nil (st : St) : endSt st [] = st := rfl

@[simp] theorem endSt_cons (st : St) (r : Step) (rs : List Step) :
    endSt st (r :: rs) = endSt r.after rs := rfl

theorem stepsOk_append {sv : Solver} {st : St} {t1 t2 : List Step}
    (h1 : stepsOk sv st t1) (h2 : stepsOk sv (endSt st t1) t2) :
    stepsOk sv st (t1 ++ t2) := by
  induction t1 generalizing st with
  | nil => exact h2
  | cons r rs ih =>
    obtain ⟨h₁, h₂, h₃, h₄, h₅, h₆⟩ := h1
    exact ⟨h₁, h₂, h₃, h₄, h₅, ih h₆ h2⟩

/-- Number of lines (rows and columns) that still carry positive remaining
quantity; the termination measure for all three methods. -/
def mu (sv : Solver) (st : St) : Nat :=
  ((List.range sv.m).filter (fun a => decide (0 < st.s a))).length +
  ((List.range sv.n).filter (fun b => decide (0 < st.d b))).length

/-- Number of effective (positive-quantity) allocations in a step list. -/
def effCount (tr : List Step) : Nat := (tr.filter (fun r => decide (0 < r.qty))).length

theorem filter_length_le {α : Type} (p q : α → Bool) :
    ∀ l : List α, (∀ x ∈ l, q x = true → p x = true) →
      (l.filter q).length ≤ (l.filter p).length := by
  intro l
  induction l with
  | nil => intro _; simp
  | cons a t ih =>
    intro h
    have ht := ih fun x hx hq => h x (List.mem_cons_of_mem _ hx) hq
    by_cases hqa : q a = true
    · have hpa := h a (List.mem_cons_self _ _) hqa
      simp only [List.filter_cons, hqa, hpa, if_true, List.length_cons]
      omega
    · simp only [List.filter_cons, hqa, if_false, Bool.false_eq_true]
      by_cases hpa : p a = true <;> simp only [hpa, if_true, if_false, List.length_cons,
        Bool.false_eq_true] <;> omega

theorem filter_length_lt {α : Type} (p q : α → Bool) :
    ∀ l : List α, (∀ x ∈ l, q x = true → p x = true) →
      ∀ x0 ∈ l, p x0 = true → q x0 = false →
      (l.filter q).length < (l.filter p).length := by
  intro l
  induction l with
  | nil => intro _ x0 hx0; simp at hx0
  | cons a t ih =>
    intro h x0 hx0 hp0 hq0
    rcases List.mem_cons.mp hx0 with rfl | hmem
    · have hqa : ¬ q x0 = true := by simp [hq0]
      have hle := filter_length_le p q t fun x hx hq => h x (List.mem_cons_of_mem _ hx) hq
      simp only [List.filter_cons, hq0, hp0, if_true, if_false, List.length_cons,
        Bool.false_eq_true]
      omega
    · have hlt := ih (fun x hx hq => h x (List.mem_cons_of_mem _ hx) hq) x0 hmem hp0 hq0
      by_cases hqa : q a = true
      · have hpa := h a (List.mem_cons_self _ _) hqa
        simp only [List.filter_cons, hqa, hpa, if_true, List.length_cons]
        omega
      · simp only [List.filter_cons, hqa, if_false, Bool.false_eq_true]
        by_cases hpa : p a = true <;> simp only [hpa, if_true, if_false, List.length_cons,
          Bool.false_eq_true] <;> omega

theorem mu_le (sv : Solver) (st : St) : mu sv st ≤ sv.m + sv.n := by
  unfold mu
  have h1 := List.length_filter_le (fun a => decide (0 < st.s a)) (List.range sv.m)
  have h2 := List.length_filter_le (fun b => decide (0 < st.d b)) (List.range sv.n)
  simp only [List.length_range] at h1 h2
  omega

theorem mu_ge_two {sv : Solver} {st : St} {i j : Nat} (him : i < sv.m) (hjn : j < sv.n)
    (hsi : 0 < st.s i) (hdj : 0 < st.d j) : 2 ≤ mu sv st := by
  have h1 : i ∈ (List.range sv.m).filter (fun a => decide (0 < st.s a)) :=
    List.mem_filter.mpr ⟨List.mem_range.mpr him, by simp [hsi]⟩
  have h2 : j ∈ (List.range sv.n).filter (fun b => decide (0 < st.d b)) :=
    List.mem_filter.mpr ⟨List.mem_range.mpr hjn, by simp [hdj]⟩
  have l1 := List.length_pos_of_mem h1
  have l2 := List.length_pos_of_mem h2
  unfold mu
  omega

theorem mu_step_lt {sv : Solver} {st : St} {i j : Nat} (him : i < sv.m) (hjn : j < sv.n)
    (hsi : 0 < st.s i) (hdj : 0 < st.d j) :
    mu sv (applyAt st i j) < mu sv st := by
  have hsle := applyAt_s_le hsi.le hdj.le
  have hdle := applyAt_d_le hsi.le hdj.le
  have himp1 : ∀ x ∈ List.range sv.m, decide (0 < (applyAt st i j).s x) = true →
      decide (0 < st.s x) = true := by
    intro x _ hx
    have := hsle x
    simp only [decide_eq_true_eq] at hx ⊢
    omega
  have himp2 : ∀ x ∈ List.range sv.n, decide (0 < (applyAt st i j).d x) = true →
      decide (0 < st.d x) = true := by
    intro x _ hx
    have := hdle x
    simp only [decide_eq_true_eq] at hx ⊢
    omega
  rcases applyAt_zeroes st i j with h0 | h0
  · have hlt := filter_length_lt _ _ (List.range sv.m) himp1 i (List.mem_range.mpr him)
      (by simp [hsi]) (by simp [h0])
    have hle := filter_length_le _ _ (List.range sv.n) himp2
    unfold mu
    omega
  · have hlt := filter_length_lt _ _ (List.range sv.n) himp2 j (List.mem_range.mpr hjn)
      (by simp [hdj]) (by simp [h0])
    have hle := filter_length_le _ _ (List.range sv.m) himp1
    unfold mu
    omega

theorem mu_step_eq {sv : Solver} {st : St} {i j : Nat}
    (h0 : min (st.s i) (st.d j) = 0) : mu sv (applyAt st i j) = mu sv st := by
  have hs : (applyAt st i j).s = st.s := by
    funext k
    rw [applyAt_s]
    by_cases hk : k = i
    · subst hk; rw [if_pos rfl, h0]; ring
    · rw [if_neg hk]
  have hd : (applyAt st i j).d = st.d := by
    funext k
    rw [applyAt_d]
    by_cases hk : k = j
    · subst hk; rw [if_pos rfl, h0]; ring
    · rw [if_neg hk]
  unfold mu
  rw [hs, hd]

/-- Generic bound, valid for any chained step list from a non-negative state:
the number of effective allocations is either 0, or strictly below the
number of positive lines at the start. -/
theorem stepsOk_effBound {sv : Solver} : ∀ {tr : List Step} {st : St},
    stepsOk sv st tr → Nonneg sv st →
    effCount tr = 0 ∨ effCount tr + 1 ≤ mu sv st := by
  intro tr
  induction tr with
  | nil => intro st _ _; left; rfl
  | cons r rs ih =>
    intro st h hnn
    obtain ⟨hm, hn, hz, hq, ha, hrest⟩ := h
    have hnn' : Nonneg sv r.after := by rw [ha]; exact applyAt_nonneg _ _ hnn
    have ihr := ih hrest hnn'
    by_cases hpos : 0 < r.qty
    · have hboth : 0 < st.s r.src ∧ 0 < st.d r.dst := by
        rw [hq] at hpos
        constructor <;> [exact lt_of_lt_of_le hpos (min_le_left _ _);
          exact lt_of_lt_of_le hpos (min_le_right _ _)]
      have hlt : mu sv r.after < mu sv st := by
        rw [ha]; exact mu_step_lt hm hn hboth.1 hboth.2
      have h2 : 2 ≤ mu sv st := mu_ge_two hm hn hboth.1 hboth.2
      have hcnt : effCount (r :: rs) = effCount rs + 1 := by
        simp [effCount, List.filter_cons, hpos]
      right
      rcases ihr with h0 | hstep <;> omega
    · have hq0 : min (st.s r.src) (st.d r.dst) = 0 := by
        have h1 := hnn.1 r.src hm
        have h2 := hnn.2 r.dst hn
        have : 0 ≤ min (st.s r.src) (st.d r.dst) := le_min h1 h2
        rw [hq] at hpos
        omega
      have heq : mu sv r.after = mu sv st := by rw [ha]; exact mu_step_eq hq0
      have hcnt : effCount (r :: rs) = effCount rs := by
        simp [effCount, List.filter_cons, hpos]
      rw [hcnt, ← heq]
      exact ihr

/-- Generic trace facts from a non-negative start: quantities are
non-negative, every snapshot is non-negative, and along the snapshot chain
the remaining vectors are pointwise non-increasing while every cell of the
allocation matrix is pointwise non-decreasing. -/
theorem stepsOk_invariants {sv : Solver} : ∀ {tr : List Step} {st : St},
    stepsOk sv st tr → Nonneg sv st →
    (∀ r ∈ tr, 0 ≤ r.qty ∧ Nonneg sv r.after) ∧
    List.Chain' (fun a b : St => (∀ k, b.s k ≤ a.s k) ∧ (∀ k, b.d k ≤ a.d k) ∧
      (∀ p q, a.alloc p q ≤ b.alloc p q)) (st :: tr.map Step.after) := by
  intro tr
  induction tr with
  | nil => intro st _ _; exact ⟨by simp, by simp⟩
  | cons r rs ih =>
    intro st h hnn
    obtain ⟨hm, hn, hz, hq, ha, hrest⟩ := h
    have hsi : 0 ≤ st.s r.src := hnn.1 r.src hm
    have hdj : 0 ≤ st.d r.dst := hnn.2 r.dst hn
    have hnn' : Nonneg sv r.after := by rw [ha]; exact applyAt_nonneg _ _ hnn
    have ihr := ih hrest hnn'
    refine ⟨?_, ?_⟩
    · intro x hx
      rcases List.mem_cons.mp hx with rfl | hmem
      · exact ⟨by rw [hq]; exact le_min hsi hdj, hnn'⟩
      · exact ihr.1 x hmem
    · rw [List.map_cons]
      refine List.Chain'.cons ?_ ihr.2
      rw [ha]
      exact ⟨applyAt_s_le hsi hdj, applyAt_d_le hsi hdj, applyAt_alloc_ge hz hsi hdj⟩

/-- Chained description of an NWC trace from cursor `(i, j)`: each record is
an in-range allocation at the cursor, followed by the advance rule applied
to the post-step remaining vectors. -/
def nwcChain (sv : Solver) : Nat → Nat → List Step → Prop
  | _, _, [] => True
  | i, j, r :: rs => r.src = i ∧ r.dst = j ∧ i < sv.m ∧ j < sv.n ∧
      nwcChain sv (nwcAdvance sv.n r.after.s r.after.d i j).1
        (nwcAdvance sv.n r.after.s r.after.d i j).2 rs

/-- Loop invariant of `solve_nwc`: the cursor stays in `[0, m] × [0, n]`,
rows above and columns left of the cursor are exhausted, and the staircase
region at and after the cursor is still unallocated. -/
def NwcInv (sv : Solver) (i j : Nat) (st : St) : Prop :=
  i ≤ sv.m ∧ j ≤ sv.n ∧ (∀ a < i, st.s a = 0) ∧ (∀ b < j, st.d b = 0) ∧
  (∀ a b, i ≤ a → j ≤ b → st.alloc a b = 0)

theorem nwcAdvance_cases (n : Nat) (s d : Nat → Int) (i j : Nat) (h : s i = 0 ∨ d j = 0) :
    (nwcAdvance n s d i j = (i, j + 1) ∧ d j = 0) ∨
    (nwcAdvance n s d i j = (i + 1, j) ∧ s i = 0) := by
  unfold nwcAdvance
  by_cases h1 : s i = 0 ∧ d j = 0
  · rw [if_pos h1]
    by_cases h2 : j + 1 < n
    · left; exact ⟨by rw [if_pos h2], h1.2⟩
    · right; exact ⟨by rw [if_neg h2], h1.1⟩
  · rw [if_neg h1]
    by_cases h2 : s i = 0
    · right; rw [if_pos h2]; exact ⟨rfl, h2⟩
    · have h3 : d j = 0 := by tauto
      left
      rw [if_neg h2, if_pos h3]
      exact ⟨rfl, h3⟩

theorem nwcInv_step {sv : Solver} {i j : Nat} {st : St} (hinv : NwcInv sv i j st)
    (him : i < sv.m) (hjn : j < sv.n) :
    NwcInv sv (nwcAdvance sv.n (applyAt st i j).s (applyAt st i j).d i j).1
      (nwcAdvance sv.n (applyAt st i j).s (applyAt st i j).d i j).2 (applyAt st i j) := by
  obtain ⟨_, _, hrows, hcols, hreg⟩ := hinv
  rcases nwcAdvance_cases sv.n (applyAt st i j).s (applyAt st i j).d i j
      (applyAt_zeroes st i j) with ⟨heq, hd0⟩ | ⟨heq, hs0⟩
  · rw [heq]
    refine ⟨him.le, hjn, ?_, ?_, ?_⟩
    · intro a ha
      rw [applyAt_s, if_neg (by omega)]
      exact hrows a ha
    · intro b hb
      rcases Nat.lt_succ_iff_lt_or_eq.mp hb with hb' | rfl
      · rw [applyAt_d, if_neg (by omega)]
        exact hcols b hb'
      · exact hd0
    · intro a b ha hb
      rw [applyAt_alloc, if_neg (by omega)]
      exact hreg a b ha (by omega)
  · rw [heq]
    refine ⟨him, hjn.le, ?_, ?_, ?_⟩
    · intro a ha
      rcases Nat.lt_succ_iff_lt_or_eq.mp ha with ha' | rfl
      · rw [applyAt_s, if_neg (by omega)]
        exact hrows a ha'
      · exact hs0
    · intro b hb
      rw [applyAt_d, if_neg (by omega)]
      exact hcols b hb
    · intro a b ha hb
      rw [applyAt_alloc, if_neg (by omega)]
      exact hreg a b (by omega) hb

theorem nwcGo_succ_pos (sv : Solver) (fuel i j : Nat) (st : St) (h : i < sv.m ∧ j < sv.n) :
    nwcGo sv (fuel + 1) i j st =
      (⟨i, j, min (st.s i) (st.d j), applyAt st i j⟩ ::
        (nwcGo sv fuel (nwcAdvance sv.n (applyAt st i j).s (applyAt st i j).d i j).1
          (nwcAdvance sv.n (applyAt st i j).s (applyAt st i j).d i j).2 (applyAt st i j)).1,
       (nwcGo sv fuel (nwcAdvance sv.n (applyAt st i j).s (applyAt st i j).d i j).1
          (nwcAdvance sv.n (applyAt st i j).s (applyAt st i j).d i j).2 (applyAt st i j)).2) := by
  simp only [nwcGo, if_pos h]

theorem nwcGo_succ_neg (sv : Solver) (fuel i j : Nat) (st : St) (h : ¬(i < sv.m ∧ j < sv.n)) :
    nwcGo sv (fuel + 1) i j st = ([], st, i, j) := by
  simp only [nwcGo, if_neg h]

theorem nwcAdvance_sum {n : Nat} {s d : Nat → Int} {i j : Nat} (h : s i = 0 ∨ d j = 0) :
    (nwcAdvance n s d i j).1 + (nwcAdvance n s d i j).2 = i + j + 1 := by
  rcases nwcAdvance_cases n s d i j h with ⟨heq, _⟩ | ⟨heq, _⟩ <;> rw [heq] <;> omega

/-- Master induction for `solve_nwc`: with enough fuel, the run produces a
valid chained trace, ends with the cursor out of bounds, and preserves all
conservation invariants. -/
theorem nwcGo_master (sv : Solver) : ∀ (fuel i j : Nat) (st : St),
    NwcInv sv i j st → RowCons sv st → ColCons sv st →
    sv.m + sv.n ≤ fuel + i + j →
    stepsOk sv st (nwcGo sv fuel i j st).1 ∧
    (nwcGo sv fuel i j st).2.1 = endSt st (nwcGo sv fuel i j st).1 ∧
    nwcChain sv i j (nwcGo sv fuel i j st).1 ∧
    (sv.m ≤ (nwcGo sv fuel i j st).2.2.1 ∨ sv.n ≤ (nwcGo sv fuel i j st).2.2.2) ∧
    NwcInv sv (nwcGo sv fuel i j st).2.2.1 (nwcGo sv fuel i j st).2.2.2
      (nwcGo sv fuel i j st).2.1 ∧
    RowCons sv (nwcGo sv fuel i j st).2.1 ∧
    ColCons sv (nwcGo sv fuel i j st).2.1 := by
  intro fuel
  induction fuel with
  | zero =>
    intro i j st hinv hrc hcc hfuel
    have hm := hinv.1
    have hn := hinv.2.1
    simp only [nwcGo]
    exact ⟨trivial, rfl, trivial, show sv.m ≤ i ∨ sv.n ≤ j by omega, hinv, hrc, hcc⟩
  | succ fuel ih =>
    intro i j st hinv hrc hcc hfuel
    by_cases hij : i < sv.m ∧ j < sv.n
    · rw [nwcGo_succ_pos sv fuel i j st hij]
      have hz : st.alloc i j = 0 := hinv.2.2.2.2 i j le_rfl le_rfl
      have hinv' := nwcInv_step hinv hij.1 hij.2
      have hrc' := applyAt_rowCons hij.2 hz hrc
      have hcc' := applyAt_colCons hij.1 hz hcc
      have hsum := nwcAdvance_sum (n := sv.n) (s := (applyAt st i j).s)
        (d := (applyAt st i j).d) (i := i) (j := j) (applyAt_zeroes st i j)
      have hfuel' : sv.m + sv.n ≤ fuel +
          (nwcAdvance sv.n (applyAt st i j).s (applyAt st i j).d i j).1 +
          (nwcAdvance sv.n (applyAt st i j).s (applyAt st i j).d i j).2 := by omega
      have ihr := ih (nwcAdvance sv.n (applyAt st i j).s (applyAt st i j).d i j).1
        (nwcAdvance sv.n (applyAt st i j).s (applyAt st i j).d i j).2 (applyAt st i j)
        hinv' hrc' hcc' hfuel'
      refine ⟨⟨hij.1, hij.2, hz, rfl, rfl, ihr.1⟩, ?_, ⟨rfl, rfl, hij.1, hij.2, ihr.2.2.1⟩,
        ihr.2.2.2.1, ihr.2.2.2.2.1, ihr.2.2.2.2.2.1, ihr.2.2.2.2.2.2⟩
      rw [endSt_cons]
      exact ihr.2.1
    · rw [nwcGo_succ_neg sv fuel i j st hij]
      exact ⟨trivial, rfl, trivial, show sv.m ≤ i ∨ sv.n ≤ j by omega, hinv, hrc, hcc⟩

/-- A balanced problem: total supply equals total demand. -/
def Balanced (sv : Solver) : Prop := sumR sv.supply sv.m = sumR sv.demand sv.n

theorem rowCons_sum {sv : Solver} {st : St} (hrc : RowCons sv st) :
    sumR st.s sv.m + ∑ i in Finset.range sv.m, ∑ j in Finset.range sv.n, st.alloc i j
      = sumR sv.supply sv.m := by
  unfold sumR
  rw [← Finset.sum_add_distrib]
  exact Finset.sum_congr rfl fun i hi => hrc i (Finset.mem_range.mp hi)

theorem colCons_sum {sv : Solver} {st : St} (hcc : ColCons sv st) :
    sumR st.d sv.n + ∑ i in Finset.range sv.m, ∑ j in Finset.range sv.n, st.alloc i j
      = sumR sv.demand sv.n := by
  unfold sumR
  rw [Finset.sum_comm, ← Finset.sum_add_distrib]
  exact Finset.sum_congr rfl fun j hj => hcc j (Finset.mem_range.mp hj)

/-- On a balanced problem, once one side is exhausted the other side is
exhausted as well. -/
theorem exhausted_of_half {sv : Solver} {st : St} (hb : Balanced sv) (hnn : Nonneg sv st)
    (hrc : RowCons sv st) (hcc : ColCons sv st)
    (hhalf : (∀ i < sv.m, st.s i = 0) ∨ (∀ j < sv.n, st.d j = 0)) :
    (∀ i < sv.m, st.s i = 0) ∧ (∀ j < sv.n, st.d j = 0) := by
  have h1 := rowCons_sum hrc
  have h2 := colCons_sum hcc
  unfold Balanced at hb
  rcases hhalf with hs | hd
  · refine ⟨hs, ?_⟩
    have hs0 : sumR st.s sv.m = 0 := by
      unfold sumR
      exact Finset.sum_eq_zero fun i hi => hs i (Finset.mem_range.mp hi)
    have hd0 : sumR st.d sv.n = 0 := by omega
    intro j hj
    exact (Finset.sum_eq_zero_iff_of_nonneg
      fun b hb' => hnn.2 b (Finset.mem_range.mp hb')).mp hd0 j (Finset.mem_range.mpr hj)
  · refine ⟨?_, hd⟩
    have hd0 : sumR st.d sv.n = 0 := by
      unfold sumR
      exact Finset.sum_eq_zero fun j hj => hd j (Finset.mem_range.mp hj)
    have hs0 : sumR st.s sv.m = 0 := by omega
    intro i hi
    exact (Finset.sum_eq_zero_iff_of_nonneg
      fun a ha => hnn.1 a (Finset.mem_range.mp ha)).mp hs0 i (Finset.mem_range.mpr hi)

/-- Fully exhausted final state yields the conservation equations of the
specification: row sums equal supply, column sums equal demand, and the
grand total equals both balanced totals. -/
theorem conservation_of_exhausted {sv : Solver} {st : St}
    (hrc : RowCons sv st) (hcc : ColCons sv st)
    (hs : ∀ i < sv.m, st.s i = 0) (hd : ∀ j < sv.n, st.d j = 0) :
    (∀ i < sv.m, ∑ j in Finset.range sv.n, st.alloc i j = sv.supply i) ∧
    (∀ j < sv.n, ∑ i in Finset.range sv.m, st.alloc i j = sv.demand j) ∧
    (∑ i in Finset.range sv.m, ∑ j in Finset.range sv.n, st.alloc i j = sumR sv.supply sv.m) ∧
    (∑ i in Finset.range sv.m, ∑ j in Finset.range sv.n, st.alloc i j = sumR sv.demand sv.n) := by
  refine ⟨?_, ?_, ?_, ?_⟩
  · intro i hi
    have h := hrc i hi
    rw [hs i hi, zero_add] at h
    exact h
  · intro j hj
    have h := hcc j hj
    rw [hd j hj, zero_add] at h
    exact h
  · have h1 := rowCons_sum hrc
    have hs0 : sumR st.s sv.m = 0 := by
      unfold sumR
      exact Finset.sum_eq_zero fun i hi => hs i (Finset.mem_range.mp hi)
    omega
  · have h2 := colCons_sum hcc
    have hd0 : sumR st.d sv.n = 0 := by
      unfold sumR
      exact Finset.sum_eq_zero fun j hj => hd j (Finset.mem_range.mp hj)
    omega

/-- One candidate update of `_find_min_cost`: python keeps the incumbent
unless the new cell is strictly cheaper (`c < min_cost`), so the first
minimum encountered wins ties. -/
def fmcUpdate (sv : Solver) (i j : Nat) (best : Option (Nat × Nat × Int)) :
    Option (Nat × Nat × Int) :=
  match best with
  | none => some (i, j, sv.cost i j)
  | some b => if sv.cost i j < b.2.2 then some (i, j, sv.cost i j) else best

/-- The inner `for j in range(self.n)` loop of `_find_min_cost`. -/
def fmcRow (sv : Solver) (d : Nat → Int) (exclude_col : Option Nat) (i : Nat)
    (best : Option (Nat × Nat × Int)) : Option (Nat × Nat × Int) :=
  (List.range sv.n).foldl
    (fun b j => if d j = 0 ∨ some j = exclude_col then b else fmcUpdate sv i j b) best

/-- Embedding of `_find_min_cost`: row-major scan over cells with
non-exhausted row and column, skipping the excluded column; the python
`-1` sentinel and `inf` start become `none`. -/
def find_min_cost (sv : Solver) (s d : Nat → Int) (exclude_col : Option Nat) :
    Option (Nat × Nat × Int) :=
  (List.range sv.m).foldl
    (fun b i => if s i = 0 then b else fmcRow sv d exclude_col i b) none

/-- A cell `_find_min_cost` may select: in range, not in an exhausted row or
column, not in the excluded column. -/
def FmcElig (sv : Solver) (s d : Nat → Int) (ex : Option Nat) (p : Nat × Nat) : Prop :=
  p.1 < sv.m ∧ p.2 < sv.n ∧ s p.1 ≠ 0 ∧ d p.2 ≠ 0 ∧ some p.2 ≠ ex

/-- Row-major scan order: `p` is visited strictly before `q`. -/
def rmBefore (p q : Nat × Nat) : Prop := p.1 < q.1 ∨ (p.1 = q.1 ∧ p.2 < q.2)

/-- Invariant of the `_find_min_cost` scan after having visited the cells in
`S`: the accumulator is `none` when no visited cell is eligible, and
otherwise holds the first-encountered cheapest visited eligible cell. -/
def FmcAcc (sv : Solver) (s d : Nat → Int) (ex : Option Nat) (S : Nat × Nat → Prop)
    (acc : Option (Nat × Nat × Int)) : Prop :=
  (acc = none ∧ ∀ p, S p → ¬ FmcElig sv s d ex p) ∨
  (∃ i j, acc = some (i, j, sv.cost i j) ∧ S (i, j) ∧ FmcElig sv s d ex (i, j) ∧
    (∀ p, S p → FmcElig sv s d ex p → sv.cost i j ≤ sv.cost p.1 p.2) ∧
    (∀ p, S p → FmcElig sv s d ex p → rmBefore p (i, j) → sv.cost i j < sv.cost p.1 p.2))

theorem fmcAcc_mono {sv : Solver} {s d : Nat → Int} {ex : Option Nat}
    {S S' : Nat × Nat → Prop} {acc : Option (Nat × Nat × Int)}
    (h : FmcAcc sv s d ex S acc) (hsub : ∀ p, S p → S' p)
    (hback : ∀ p, S' p → S p ∨ ¬ FmcElig sv s d ex p) :
    FmcAcc sv s d ex S' acc := by
  rcases h with ⟨hnone, hall⟩ | ⟨i, j, heq, hS, helig, hmin, hfirst⟩
  · left
    refine ⟨hnone, fun p hp => ?_⟩
    rcases hback p hp with hS | hne
    · exact hall p hS
    · exact hne
  · right
    refine ⟨i, j, heq, hsub _ hS, helig, ?_, ?_⟩
    · intro p hp he
      rcases hback p hp with hS' | hne
      · exact hmin p hS' he
      · exact absurd he hne
    · intro p hp he hbef
      rcases hback p hp with hS' | hne
      · exact hfirst p hS' he hbef
      · exact absurd he hne

/-- Cells already visited by the scan when it reaches column `k` of row `i`. -/
def fmcScan (i k : Nat) (p : Nat × Nat) : Prop := p.1 < i ∨ (p.1 = i ∧ p.2 < k)

theorem fmcRow_acc {sv : Solver} {s d : Nat → Int} {ex : Option Nat} {i : Nat}
    (him : i < sv.m) (hsi : s i ≠ 0) :
    ∀ (k : Nat), k ≤ sv.n → ∀ acc, FmcAcc sv s d ex (fmcScan i 0) acc →
      FmcAcc sv s d ex (fmcScan i k)
        ((List.range k).foldl
          (fun b j => if d j = 0 ∨ some j = ex then b else fmcUpdate sv i j b) acc) := by
  intro k
  induction k with
  | zero => intro _ acc h; simpa using h
  | succ k ihk =>
    intro hk acc h
    have hk' : k ≤ sv.n := by omega
    have hkn : k < sv.n := by omega
    have hprev := ihk hk' acc h
    rw [List.range_succ, List.foldl_append, List.foldl_cons, List.foldl_nil]
    have hext : ∀ p, fmcScan i k p → fmcScan i (k + 1) p := by
      intro p hp
      rcases hp with h1 | h2
      · exact Or.inl h1
      · exact Or.inr ⟨h2.1, by omega⟩
    have hnew : ∀ p, fmcScan i (k + 1) p → fmcScan i k p ∨ p = (i, k) := by
      intro p hp
      rcases hp with h1 | h2
      · exact Or.inl (Or.inl h1)
      · rcases Nat.lt_succ_iff_lt_or_eq.mp h2.2 with h3 | h3
        · exact Or.inl (Or.inr ⟨h2.1, h3⟩)
        · right
          obtain ⟨p1, p2⟩ := p
          simp only at h2 h3
          rw [h2.1, h3]
    by_cases hskip : d k = 0 ∨ some k = ex
    · rw [if_pos hskip]
      refine fmcAcc_mono hprev hext ?_
      intro p hp
      rcases hnew p hp with h1 | h1
      · exact Or.inl h1
      · right
        rw [h1]
        intro he
        rcases hskip with h2 | h2
        · exact he.2.2.2.1 h2
        · exact he.2.2.2.2 h2
    · rw [if_neg hskip]
      push_neg at hskip
      have helig : FmcElig sv s d ex (i, k) := ⟨him, hkn, hsi, hskip.1, hskip.2⟩
      have hbefall : ∀ p, fmcScan i k p → rmBefore p (i, k) := by
        intro p hp
        rcases hp with h1 | h2
        · exact Or.inl h1
        · exact Or.inr h2
      rcases hprev with ⟨hacc, hall⟩ | ⟨a, b, hacc, hS, he, hmin, hfirst⟩
      · rw [hacc]
        right
        refine ⟨i, k, rfl, Or.inr ⟨rfl, by omega⟩, helig, ?_, ?_⟩
        · intro p hp hpe
          rcases hnew p hp with h1 | h1
          · exact absurd hpe (hall p h1)
          · rw [h1]
        · intro p hp hpe hbef
          rcases hnew p hp with h1 | h1
          · exact absurd hpe (hall p h1)
          · exfalso
            rw [h1] at hbef
            rcases hbef with h2 | h2 <;> omega
      · rw [hacc]
        by_cases hlt : sv.cost i k < sv.cost a b
        · right
          refine ⟨i, k, by simp [fmcUpdate, hlt], Or.inr ⟨rfl, by omega⟩, helig, ?_, ?_⟩
          · intro p hp hpe
            rcases hnew p hp with h1 | h1
            · exact le_trans hlt.le (hmin p h1 hpe)
            · rw [h1]
          · intro p hp hpe hbef
            rcases hnew p hp with h1 | h1
            · exact lt_of_lt_of_le hlt (hmin p h1 hpe)
            · exfalso
              rw [h1] at hbef
              rcases hbef with h2 | h2 <;> omega
        · right
          refine ⟨a, b, by simp [fmcUpdate, hlt], hext _ hS, he, ?_, ?_⟩
          · intro p hp hpe
            rcases hnew p hp with h1 | h1
            · exact hmin p h1 hpe
            · rw [h1]
              exact not_lt.mp hlt
          · intro p hp hpe hbef
            rcases hnew p hp with h1 | h1
            · exact hfirst p h1 hpe hbef
            · exfalso
              have hab := hbefall (a, b) hS
              rw [h1] at hbef
              unfold rmBefore at hab hbef
              simp only at hab hbef
              omega

theorem find_min_cost_acc (sv : Solver) (s d : Nat → Int) (ex : Option Nat) :
    ∀ k, k ≤ sv.m →
      FmcAcc sv s d ex (fun p => p.1 < k)
        ((List.range k).foldl (fun b i => if s i = 0 then b else fmcRow sv d ex i b) none) := by
  intro k
  induction k with
  | zero =>
    intro _
    left
    exact ⟨rfl, fun p hp => absurd hp (by omega)⟩
  | succ k ihk =>
    intro hk
    have hkm : k < sv.m := hk
    have hprev := ihk (by omega)
    rw [List.range_succ, List.foldl_append, List.foldl_cons, List.foldl_nil]
    by_cases hs : s k = 0
    · rw [if_pos hs]
      refine fmcAcc_mono hprev (fun p hp => by omega) ?_
      intro p hp
      by_cases h1 : p.1 < k
      · exact Or.inl h1
      · right
        intro he
        have h2 : p.1 = k := by omega
        exact he.2.2.1 (h2 ▸ hs)
    · rw [if_neg hs]
      have h0 : FmcAcc sv s d ex (fmcScan k 0)
          ((List.range k).foldl (fun b i => if s i = 0 then b else fmcRow sv d ex i b) none) := by
        refine fmcAcc_mono hprev (fun p hp => Or.inl hp) ?_
        intro p hp
        rcases hp with h1 | h1
        · exact Or.inl h1
        · omega
      have hrow := fmcRow_acc hkm hs sv.n le_rfl _ h0
      refine fmcAcc_mono hrow ?_ ?_
      · intro p hp
        rcases hp with h1 | h1 <;> omega
      · intro p hp
        by_cases h1 : p.1 < k
        · exact Or.inl (Or.inl h1)
        · have hpk : p.1 = k := by omega
          by_cases h2 : p.2 < sv.n
          · exact Or.inl (Or.inr ⟨hpk, h2⟩)
          · right
            intro he
            exact h2 he.2.1

theorem find_min_cost_spec (sv : Solver) (s d : Nat → Int) (ex : Option Nat) :
    FmcAcc sv s d ex (fun p => p.1 < sv.m) (find_min_cost sv s d ex) :=
  find_min_cost_acc sv s d ex sv.m le_rfl

theorem find_min_cost_none_iff (sv : Solver) (s d : Nat → Int) (ex : Option Nat) :
    find_min_cost sv s d ex = none ↔ ∀ p, ¬ FmcElig sv s d ex p := by
  have h := find_min_cost_spec sv s d ex
  constructor
  · intro h0 p he
    rcases h with ⟨_, hall⟩ | ⟨i, j, hacc, _, _, _, _⟩
    · exact hall p he.1 he
    · rw [h0] at hacc
      exact Option.noConfusion hacc
  · intro hall
    rcases h with ⟨h0, _⟩ | ⟨i, j, _, _, he, _, _⟩
    · exact h0
    · exact absurd he (hall (i, j))

/-- Characterization of a successful `_find_min_cost`: the returned cell is
eligible, carries its own cost, is globally cheapest among eligible cells,
and is the first cell in row-major order attaining that minimum. -/
theorem find_min_cost_some {sv : Solver} {s d : Nat → Int} {ex : Option Nat}
    {i j : Nat} {c : Int} (h : find_min_cost sv s d ex = some (i, j, c)) :
    FmcElig sv s d ex (i, j) ∧ c = sv.cost i j ∧
    (∀ p, FmcElig sv s d ex p → sv.cost i j ≤ sv.cost p.1 p.2) ∧
    (∀ p, FmcElig sv s d ex p → rmBefore p (i, j) → sv.cost i j < sv.cost p.1 p.2) := by
  have hs := find_min_cost_spec sv s d ex
  rcases hs with ⟨h0, _⟩ | ⟨a, b, hacc, _, he, hmin, hfirst⟩
  · rw [h] at h0
    exact Option.noConfusion h0
  · rw [h] at hacc
    have hinj : (i, j, c) = (a, b, sv.cost a b) := Option.some.inj hacc
    have hia : i = a := congrArg Prod.fst hinj
    have hjb : j = b := congrArg Prod.fst (congrArg Prod.snd hinj)
    have hcc : c = sv.cost a b := congrArg Prod.snd (congrArg Prod.snd hinj)
    subst hia
    subst hjb
    exact ⟨he, hcc, fun p hp => hmin p hp.1 hp, fun p hp => hfirst p hp.1 hp⟩

/-- The designated dummy column of `solve_least_cost`
(`self.n - 1 if self.dummy_type == "demand" else -1`). -/
def dummy_col (sv : Solver) : Option Nat :=
  if sv.dummy_type = some DummyType.demand then some (sv.n - 1) else none

/-- Number of real (non-dummy) destination columns; the range of the
phase-one loop guard `any(d[j] > 0 for j in range(n - (1 if dummy else 0)))`. -/
def realCols (sv : Solver) : Nat :=
  sv.n - (if (dummy_col sv).isSome then 1 else 0)

theorem lt_realCols {sv : Solver} {j : Nat} (hjn : j < sv.n)
    (hne : some j ≠ dummy_col sv) : j < realCols sv := by
  unfold realCols dummy_col at *
  by_cases hd : sv.dummy_type = some DummyType.demand
  · rw [if_pos hd] at hne
    simp only [ne_eq, Option.some.injEq] at hne
    simp only [hd, if_pos, Option.isSome_some, if_true]
    omega
  · rw [if_neg hd]
    simp only [Option.isSome_none, if_false, Bool.false_eq_true]
    omega

theorem realCols_ne_dummy {sv : Solver} {j : Nat} (hj : j < realCols sv) :
    some j ≠ dummy_col sv := by
  unfold realCols dummy_col at *
  by_cases hd : sv.dummy_type = some DummyType.demand
  · rw [if_pos hd]
    simp only [hd, if_pos, Option.isSome_some, if_true] at hj
    simp only [ne_eq, Option.some.injEq]
    omega
  · rw [if_neg hd]
    exact Option.some_ne_none j

theorem realCols_le (sv : Solver) : realCols sv ≤ sv.n := Nat.sub_le _ _

/-- Phase one of `solve_least_cost` (`while any(d[j] > 0 for j in range(...))`):
repeatedly allocate at the `_find_min_cost` cell, excluding the dummy
column, until no real demand remains or no cell is available. -/
def lcmGo (sv : Solver) : Nat → St → List Step × St
  | 0, st => ([], st)
  | fuel + 1, st =>
    if (List.range (realCols sv)).any (fun j => decide (0 < st.d j)) then
      match find_min_cost sv st.s st.d (dummy_col sv) with
      | none => ([], st)
      | some (i, j, _) =>
        let st' := applyAt st i j
        let rest := lcmGo sv fuel st'
        (⟨i, j, min (st.s i) (st.d j), st'⟩ :: rest.1, rest.2)
    else ([], st)

/-- Phase two of `solve_least_cost`: one left-to-right pass over the sources
draining leftover supply into the dummy column. -/
def lcmDrain (sv : Solver) (jd : Nat) : List Nat → St → List Step × St
  | [], st => ([], st)
  | i :: rest, st =>
    if 0 < st.s i ∧ 0 < st.d jd then
      let st' := applyAt st i jd
      let r := lcmDrain sv jd rest st'
      (⟨i, jd, min (st.s i) (st.d jd), st'⟩ :: r.1, r.2)
    else lcmDrain sv jd rest st

/-- Embedding of `solve_least_cost`: phase one with the dummy column
excluded, then (when a dummy destination exists) the drain pass. -/
def solve_least_cost (sv : Solver) : List Step × St :=
  let p1 := lcmGo sv (sv.m + sv.n) (initSt sv)
  match dummy_col sv with
  | some jd =>
    (p1.1 ++ (lcmDrain sv jd (List.range sv.m) p1.2).1,
      (lcmDrain sv jd (List.range sv.m) p1.2).2)
  | none => p1

theorem lcm_guard_iff (sv : Solver) (st : St) :
    ((List.range (realCols sv)).any fun j => decide (0 < st.d j)) = true ↔
      ∃ j < realCols sv, 0 < st.d j := by
  simp [List.any_eq_true, List.mem_range]

theorem lcmGo_succ_stop (sv : Solver) (fuel : Nat) (st : St)
    (h : ¬ ((List.range (realCols sv)).any fun j => decide (0 < st.d j)) = true) :
    lcmGo sv (fuel + 1) st = ([], st) := by
  simp only [lcmGo, if_neg h]

theorem lcmGo_succ_none (sv : Solver) (fuel : Nat) (st : St)
    (hg : ((List.range (realCols sv)).any fun j => decide (0 < st.d j)) = true)
    (h : find_min_cost sv st.s st.d (dummy_col sv) = none) :
    lcmGo sv (fuel + 1) st = ([], st) := by
  simp only [lcmGo, if_pos hg, h]

theorem lcmGo_succ_some (sv : Solver) (fuel : Nat) (st : St) (i j : Nat) (c : Int)
    (hg : ((List.range (realCols sv)).any fun j => decide (0 < st.d j)) = true)
    (h : find_min_cost sv st.s st.d (dummy_col sv) = some (i, j, c)) :
    lcmGo sv (fuel + 1) st =
      (⟨i, j, min (st.s i) (st.d j), applyAt st i j⟩ :: (lcmGo sv fuel (applyAt st i j)).1,
        (lcmGo sv fuel (applyAt st i j)).2) := by
  simp only [lcmGo, if_pos hg, h]

theorem mu_zero {sv : Solver} {st : St} (h : mu sv st = 0) :
    (∀ i < sv.m, ¬ 0 < st.s i) ∧ (∀ j < sv.n, ¬ 0 < st.d j) := by
  unfold mu at h
  have h1 : ((List.range sv.m).filter (fun a => decide (0 < st.s a))).length = 0 := by omega
  have h2 : ((List.range sv.n).filter (fun b => decide (0 < st.d b))).length = 0 := by omega
  rw [List.length_eq_zero] at h1 h2
  constructor
  · intro i hi hpos
    have hmem : i ∈ (List.range sv.m).filter (fun a => decide (0 < st.s a)) :=
      List.mem_filter.mpr ⟨List.mem_range.mpr hi, by simp [hpos]⟩
    rw [h1] at hmem
    exact absurd hmem (List.not_mem_nil i)
  · intro j hj hpos
    have hmem : j ∈ (List.range sv.n).filter (fun b => decide (0 < st.d b)) :=
      List.mem_filter.mpr ⟨List.mem_range.mpr hj, by simp [hpos]⟩
    rw [h2] at hmem
    exact absurd hmem (List.not_mem_nil j)

/-- Chained description of phase one of `solve_least_cost`: while some real
destination still has demand, each record is exactly the cell returned by
`_find_min_cost` with the dummy column excluded. -/
def LcmPhase1 (sv : Solver) : St → List Step → Prop
  | _, [] => True
  | st, r :: rs => (∃ j < realCols sv, 0 < st.d j) ∧
      find_min_cost sv st.s st.d (dummy_col sv) = some (r.src, r.dst, sv.cost r.src r.dst) ∧
      LcmPhase1 sv r.after rs

/-- Master induction for phase one of `solve_least_cost`: with fuel at least
the number of positive lines, the loop produces a valid chained trace of
strictly positive allocations at real columns, preserves all invariants,
and stops only when no real demand remains or no cell is eligible. -/
theorem lcmGo_master (sv : Solver) : ∀ (fuel : Nat) (st : St),
    Nonneg sv st → AllocNonneg st → RowCons sv st → ColCons sv st → CellZero st →
    mu sv st ≤ fuel →
    stepsOk sv st (lcmGo sv fuel st).1 ∧
    (lcmGo sv fuel st).2 = endSt st (lcmGo sv fuel st).1 ∧
    Nonneg sv (lcmGo sv fuel st).2 ∧ AllocNonneg (lcmGo sv fuel st).2 ∧
    RowCons sv (lcmGo sv fuel st).2 ∧ ColCons sv (lcmGo sv fuel st).2 ∧
    CellZero (lcmGo sv fuel st).2 ∧
    ((∀ j < realCols sv, ¬ 0 < (lcmGo sv fuel st).2.d j) ∨
      find_min_cost sv (lcmGo sv fuel st).2.s (lcmGo sv fuel st).2.d (dummy_col sv) = none) ∧
    (∀ r ∈ (lcmGo sv fuel st).1, 0 < r.qty ∧ r.dst < realCols sv) ∧
    LcmPhase1 sv st (lcmGo sv fuel st).1 := by
  intro fuel
  induction fuel with
  | zero =>
    intro st hnn han hrc hcc hcz hfuel
    have hmu0 := mu_zero (Nat.le_zero.mp hfuel)
    simp only [lcmGo]
    refine ⟨trivial, rfl, hnn, han, hrc, hcc, hcz, Or.inl ?_, by simp, trivial⟩
    intro j hj
    exact hmu0.2 j (lt_of_lt_of_le hj (realCols_le sv))
  | succ fuel ih =>
    intro st hnn han hrc hcc hcz hfuel
    by_cases hg : ((List.range (realCols sv)).any fun j => decide (0 < st.d j)) = true
    · rcases hfmc : find_min_cost sv st.s st.d (dummy_col sv) with _ | ⟨i, j, c⟩
      · rw [lcmGo_succ_none sv fuel st hg hfmc]
        exact ⟨trivial, rfl, hnn, han, hrc, hcc, hcz, Or.inr hfmc, by simp, trivial⟩
      · rw [lcmGo_succ_some sv fuel st i j c hg hfmc]
        obtain ⟨helig, hcost, hmin, hfirst⟩ := find_min_cost_some hfmc
        obtain ⟨him0, hjn0, hsne0, hdne0, hnex0⟩ := helig
        have him : i < sv.m := him0
        have hjn : j < sv.n := hjn0
        have hsne : st.s i ≠ 0 := hsne0
        have hdne : st.d j ≠ 0 := hdne0
        have hnex : some j ≠ dummy_col sv := hnex0
        have hsi : 0 < st.s i := lt_of_le_of_ne (hnn.1 i him) (Ne.symm hsne)
        have hdj : 0 < st.d j := lt_of_le_of_ne (hnn.2 j hjn) (Ne.symm hdne)
        have hz : st.alloc i j = 0 := by
          by_contra hne
          rcases hcz i j hne with h0 | h0
          · exact hsne h0
          · exact hdne h0
        have hnn' := applyAt_nonneg i j hnn
        have han' := applyAt_allocNonneg hsi.le hdj.le han
        have hrc' := applyAt_rowCons hjn hz hrc
        have hcc' := applyAt_colCons him hz hcc
        have hcz' := applyAt_cellZero him hjn hnn hcz
        have hmu : mu sv (applyAt st i j) ≤ fuel := by
          have := mu_step_lt him hjn hsi hdj
          omega
        have ihr := ih (applyAt st i j) hnn' han' hrc' hcc' hcz' hmu
        refine ⟨⟨him, hjn, hz, rfl, rfl, ihr.1⟩, by rw [endSt_cons]; exact ihr.2.1,
          ihr.2.2.1, ihr.2.2.2.1, ihr.2.2.2.2.1, ihr.2.2.2.2.2.1, ihr.2.2.2.2.2.2.1,
          ihr.2.2.2.2.2.2.2.1, ?_, ?_⟩
        · intro r hr
          rcases List.mem_cons.mp hr with rfl | hmem
          · exact ⟨lt_min hsi hdj, lt_realCols hjn hnex⟩
          · exact ihr.2.2.2.2.2.2.2.2.1 r hmem
        · refine ⟨(lcm_guard_iff sv st).mp hg, ?_, ihr.2.2.2.2.2.2.2.2.2⟩
          rw [← hcost]
          exact hfmc
    · rw [lcmGo_succ_stop sv fuel st hg]
      refine ⟨trivial, rfl, hnn, han, hrc, hcc, hcz, Or.inl ?_, by simp, trivial⟩
      intro j hj hpos
      exact hg ((lcm_guard_iff sv st).mpr ⟨j, hj, hpos⟩)

/-- Master induction for the drain pass of `solve_least_cost`: starting from
a state whose dummy demand equals the total remaining supply over the
still-unprocessed sources, the pass empties every listed source and the
dummy column, touches nothing else, and visits sources in list order. -/
theorem lcmDrain_master (sv : Solver) (jd : Nat) (hjd : jd < sv.n) :
    ∀ (l : List Nat) (st : St), l.Nodup → (∀ i ∈ l, i < sv.m) →
    Nonneg sv st → AllocNonneg st → RowCons sv st → ColCons sv st → CellZero st →
    st.d jd = (l.map st.s).sum →
    stepsOk sv st (lcmDrain sv jd l st).1 ∧
    (lcmDrain sv jd l st).2 = endSt st (lcmDrain sv jd l st).1 ∧
    Nonneg sv (lcmDrain sv jd l st).2 ∧ AllocNonneg (lcmDrain sv jd l st).2 ∧
    RowCons sv (lcmDrain sv jd l st).2 ∧ ColCons sv (lcmDrain sv jd l st).2 ∧
    CellZero (lcmDrain sv jd l st).2 ∧
    (∀ i ∈ l, (lcmDrain sv jd l st).2.s i = 0) ∧ (lcmDrain sv jd l st).2.d jd = 0 ∧
    (∀ i, i ∉ l → (lcmDrain sv jd l st).2.s i = st.s i) ∧
    (∀ j, j ≠ jd → (lcmDrain sv jd l st).2.d j = st.d j) ∧
    (∀ r ∈ (lcmDrain sv jd l st).1, r.dst = jd ∧ 0 < r.qty) ∧
    List.Sublist ((lcmDrain sv jd l st).1.map Step.src) l := by
  intro l
  induction l with
  | nil =>
    intro st _ _ hnn han hrc hcc hcz hsum
    refine ⟨trivial, rfl, hnn, han, hrc, hcc, hcz, by simp, by simpa [lcmDrain] using hsum,
      fun i _ => rfl, fun j _ => rfl, by simp [lcmDrain], by simp [lcmDrain]⟩
  | cons i rest ihl =>
    intro st hnodup hlt hnn han hrc hcc hcz hsum
    have hirest : i ∉ rest := (List.nodup_cons.mp hnodup).1
    have hrestnodup : rest.Nodup := (List.nodup_cons.mp hnodup).2
    have hrestlt : ∀ a ∈ rest, a < sv.m := fun a ha => hlt a (List.mem_cons_of_mem _ ha)
    have him : i < sv.m := hlt i (List.mem_cons_self _ _)
    rw [List.map_cons, List.sum_cons] at hsum
    have hrestsum_nonneg : 0 ≤ (rest.map st.s).sum := by
      apply List.sum_nonneg
      intro x hx
      obtain ⟨a, ha, rfl⟩ := List.mem_map.mp hx
      exact hnn.1 a (hrestlt a ha)
    by_cases hpos : 0 < st.s i
    · have hdpos : 0 < st.d jd := by omega
      have hguard : 0 < st.s i ∧ 0 < st.d jd := ⟨hpos, hdpos⟩
      have hmin : min (st.s i) (st.d jd) = st.s i := min_eq_left (by omega)
      have hz : st.alloc i jd = 0 := by
        by_contra hne
        rcases hcz i jd hne with h0 | h0 <;> omega
      have hs'i : (applyAt st i jd).s i = 0 := by
        rw [applyAt_s, if_pos rfl, hmin]
        ring
      have hd'jd : (applyAt st i jd).d jd = (rest.map st.s).sum := by
        rw [applyAt_d, if_pos rfl, hmin]
        omega
      have hs'rest : ∀ a ∈ rest, (applyAt st i jd).s a = st.s a := by
        intro a ha
        rw [applyAt_s, if_neg (by rintro rfl; exact hirest ha)]
      have hsum' : (applyAt st i jd).d jd = (rest.map (applyAt st i jd).s).sum := by
        rw [hd'jd]
        congr 1
        exact (List.map_congr_left fun a ha => (hs'rest a ha).symm)
      have hnn' := applyAt_nonneg i jd hnn
      have han' := applyAt_allocNonneg hpos.le hdpos.le han
      have hrc' := applyAt_rowCons hjd hz hrc
      have hcc' := applyAt_colCons him hz hcc
      have hcz' := applyAt_cellZero him hjd hnn hcz
      have ihr := ihl (applyAt st i jd) hrestnodup hrestlt hnn' han' hrc' hcc' hcz' hsum'
      have hunfold : lcmDrain sv jd (i :: rest) st =
          (⟨i, jd, min (st.s i) (st.d jd), applyAt st i jd⟩ ::
            (lcmDrain sv jd rest (applyAt st i jd)).1,
            (lcmDrain sv jd rest (applyAt st i jd)).2) := by
        simp only [lcmDrain, if_pos hguard]
      rw [hunfold]
      refine ⟨⟨him, hjd, hz, rfl, rfl, ihr.1⟩, by rw [endSt_cons]; exact ihr.2.1,
        ihr.2.2.1, ihr.2.2.2.1, ihr.2.2.2.2.1, ihr.2.2.2.2.2.1, ihr.2.2.2.2.2.2.1,
        ?_, ihr.2.2.2.2.2.2.2.2.1, ?_, ?_, ?_, ?_⟩
      · intro a ha
        rcases List.mem_cons.mp ha with rfl | hmem
        · rw [ihr.2.2.2.2.2.2.2.2.2.1 a hirest, hs'i]
        · exact ihr.2.2.2.2.2.2.2.1 a hmem
      · intro a ha
        have hanotrest : a ∉ rest := fun hmem => ha (List.mem_cons_of_mem _ hmem)
        have hani : a ≠ i := fun heq => ha (heq ▸ List.mem_cons_self _ _)
        rw [ihr.2.2.2.2.2.2.2.2.2.1 a hanotrest, applyAt_s, if_neg hani]
      · intro b hb
        rw [ihr.2.2.2.2.2.2.2.2.2.2.1 b hb, applyAt_d, if_neg hb]
      · intro r hr
        rcases List.mem_cons.mp hr with rfl | hmem
        · exact ⟨rfl, lt_min hpos hdpos⟩
        · exact ihr.2.2.2.2.2.2.2.2.2.2.2.1 r hmem
      · rw [List.map_cons]
        exact List.Sublist.cons₂ i ihr.2.2.2.2.2.2.2.2.2.2.2.2
    · have hsi0 : st.s i = 0 := le_antisymm (not_lt.mp hpos) (hnn.1 i him)
      have hsum' : st.d jd = (rest.map st.s).sum := by omega
      have ihr := ihl st hrestnodup hrestlt hnn han hrc hcc hcz hsum'
      have hguard : ¬ (0 < st.s i ∧ 0 < st.d jd) := by
        rintro ⟨h1, _⟩
        omega
      have hunfold : lcmDrain sv jd (i :: rest) st = lcmDrain sv jd rest st := by
        simp only [lcmDrain, if_neg hguard]
      rw [hunfold]
      refine ⟨ihr.1, ihr.2.1, ihr.2.2.1, ihr.2.2.2.1, ihr.2.2.2.2.1, ihr.2.2.2.2.2.1,
        ihr.2.2.2.2.2.2.1, ?_, ihr.2.2.2.2.2.2.2.2.1, ?_, ihr.2.2.2.2.2.2.2.2.2.2.1,
        ihr.2.2.2.2.2.2.2.2.2.2.2.1, ?_⟩
      · intro a ha
        rcases List.mem_cons.mp ha with rfl | hmem
        · rw [ihr.2.2.2.2.2.2.2.2.2.1 a hirest, hsi0]
        · exact ihr.2.2.2.2.2.2.2.1 a hmem
      · intro a ha
        exact ihr.2.2.2.2.2.2.2.2.2.1 a fun hmem => ha (List.mem_cons_of_mem _ hmem)
      · exact List.Sublist.trans ihr.2.2.2.2.2.2.2.2.2.2.2.2 (List.sublist_cons_self _ _)

/-- Costs of row `i` restricted to the active columns with remaining demand
(`[cost[i][j] for j in range(n) if active_cols[j] and d[j] > 0]`). -/
def rowCostList (sv : Solver) (d : Nat → Int) (ac : Nat → Bool) (i : Nat) : List Int :=
  ((List.range sv.n).filter (fun j => ac j && decide (0 < d j))).map (fun j => sv.cost i j)

/-- Costs of column `j` restricted to the active rows with remaining supply. -/
def colCostList (sv : Solver) (s : Nat → Int) (ar : Nat → Bool) (j : Nat) : List Int :=
  ((List.range sv.m).filter (fun i => ar i && decide (0 < s i))).map (fun i => sv.cost i j)

/-- Penalty from a list of active costs: for two or more costs, the
difference of the two smallest after sorting; for exactly one cost 0; for
none the `-1` sentinel is kept. -/
def penOf (cs : List Int) : Int :=
  if 2 ≤ cs.length then
    (List.insertionSort (· ≤ ·) cs).getD 1 0 - (List.insertionSort (· ≤ ·) cs).getD 0 0
  else if cs.length = 1 then 0
  else -1

/-- Row penalty of an iteration of `solve_vam` (`row_pen[i]`). -/
def row_pen (sv : Solver) (s d : Nat → Int) (ar ac : Nat → Bool) (i : Nat) : Int :=
  if ar i = false ∨ s i = 0 then -1 else penOf (rowCostList sv d ac i)

/-- Column penalty of an iteration of `solve_vam` (`col_pen[j]`). -/
def col_pen (sv : Solver) (s d : Nat → Int) (ar ac : Nat → Bool) (j : Nat) : Int :=
  if ac j = false ∨ d j = 0 then -1 else penOf (colCostList sv s ar j)

/-- One strict-maximum scan over penalties (`if pen[k] > max_pen: update`),
recording `(max_pen, is_row, idx)`; overriding requires strictly greater. -/
def bestLine (pen : Nat → Int) (len : Nat) (flag : Bool) (init : Int × Bool × Int) :
    Int × Bool × Int :=
  (List.range len).foldl (fun b k => if b.1 < pen k then (pen k, flag, (k : Int)) else b) init

/-- Penalty-maximum selection of `solve_vam`: scan row penalties first, then
column penalties, starting from `max_pen = -1, is_row = True, idx = -1`. -/
def vamSelect (sv : Solver) (s d : Nat → Int) (ar ac : Nat → Bool) : Int × Bool × Int :=
  bestLine (col_pen sv s d ar ac) sv.n false
    (bestLine (row_pen sv s d ar ac) sv.m true (-1, true, -1))

/-- One strict-minimum scan over costs of the eligible indices (`cost <
min_cost` updates, so ties keep the first index). -/
def scanMin (cost : Nat → Int) (elig : Nat → Bool) (len : Nat) : Option Nat :=
  (List.range len).foldl
    (fun best k =>
      if elig k then
        match best with
        | none => some k
        | some b => if cost k < cost b then some k else best
      else best) none

/-- Minimum-cost active cell inside the selected row of `solve_vam`. -/
def vamMinInRow (sv : Solver) (d : Nat → Int) (ac : Nat → Bool) (i : Nat) :
    Option (Nat × Nat) :=
  (scanMin (fun j => sv.cost i j) (fun j => ac j && decide (0 < d j)) sv.n).map
    (fun j => (i, j))

/-- Minimum-cost active cell inside the selected column of `solve_vam`. -/
def vamMinInCol (sv : Solver) (s : Nat → Int) (ar : Nat → Bool) (j : Nat) :
    Option (Nat × Nat) :=
  (scanMin (fun i => sv.cost i j) (fun i => ar i && decide (0 < s i)) sv.m).map
    (fun i => (i, j))

/-- The main loop of `solve_vam`, with explicit fuel: while an active
positive row and an active positive column remain, compute penalties, pick
the strictly greatest, allocate at the minimum-cost active cell of the
selected line, and deactivate exhausted lines. -/
def vamGo (sv : Solver) : Nat → St → (Nat → Bool) → (Nat → Bool) → List Step × St
  | 0, st, _, _ => ([], st)
  | fuel + 1, st, ar, ac =>
    if (((List.range sv.m).any fun i => decide (0 < st.s i) && ar i) &&
        ((List.range sv.n).any fun j => decide (0 < st.d j) && ac j)) = true then
      if (vamSelect sv st.s st.d ar ac).2.2 = -1 then ([], st)
      else
        match (if (vamSelect sv st.s st.d ar ac).2.1 then
            vamMinInRow sv st.d ac (vamSelect sv st.s st.d ar ac).2.2.toNat
          else vamMinInCol sv st.s ar (vamSelect sv st.s st.d ar ac).2.2.toNat) with
        | none => ([], st)
        | some (mi, mj) =>
          let st' := applyAt st mi mj
          let ar' := if st'.s mi = 0 then Function.update ar mi false else ar
          let ac' := if st'.d mj = 0 then Function.update ac mj false else ac
          let rest := vamGo sv fuel st' ar' ac'
          (⟨mi, mj, min (st.s mi) (st.d mj), st'⟩ :: rest.1, rest.2)
    else ([], st)

/-- Embedding of `solve_vam`: all rows and columns start active. -/
def solve_vam (sv : Solver) : List Step × St :=
  vamGo sv (sv.m + sv.n) (initSt sv) (fun _ => true) (fun _ => true)

theorem penOf_nonneg {cs : List Int} (h : cs ≠ []) : 0 ≤ penOf cs := by
  unfold penOf
  by_cases h2 : 2 ≤ cs.length
  · rw [if_pos h2]
    have hsorted := List.sorted_insertionSort (· ≤ ·) cs
    have hlen : (List.insertionSort (· ≤ ·) cs).length = cs.length :=
      List.length_insertionSort _ _
    rcases hs : List.insertionSort (· ≤ ·) cs with _ | ⟨a, t⟩
    · rw [hs] at hlen; simp at hlen; omega
    rcases t with _ | ⟨b, t'⟩
    · rw [hs] at hlen; simp at hlen; omega
    rw [hs] at hsorted
    have hab : a ≤ b := (List.sorted_cons.mp hsorted).1 b (List.mem_cons_self _ _)
    simp only [List.getD_cons_succ, List.getD_cons_zero]
    omega
  · rw [if_neg h2]
    have hne : cs.length ≠ 0 := fun h0 => h (List.length_eq_zero.mp h0)
    rw [if_pos (by omega)]

theorem penOf_empty : penOf [] = -1 := by simp [penOf]

theorem row_pen_cases {sv : Solver} {s d : Nat → Int} {ar ac : Nat → Bool} {i : Nat}
    (h : 0 ≤ row_pen sv s d ar ac i) :
    ar i = true ∧ s i ≠ 0 ∧ rowCostList sv d ac i ≠ [] := by
  unfold row_pen at h
  by_cases hc : ar i = false ∨ s i = 0
  · rw [if_pos hc] at h; omega
  · push_neg at hc
    refine ⟨by simpa using hc.1, hc.2, ?_⟩
    intro hnil
    rw [if_neg (by push_neg; exact ⟨by simpa using hc.1, hc.2⟩), hnil, penOf_empty] at h
    omega

theorem col_pen_cases {sv : Solver} {s d : Nat → Int} {ar ac : Nat → Bool} {j : Nat}
    (h : 0 ≤ col_pen sv s d ar ac j) :
    ac j = true ∧ d j ≠ 0 ∧ colCostList sv s ar j ≠ [] := by
  unfold col_pen at h
  by_cases hc : ac j = false ∨ d j = 0
  · rw [if_pos hc] at h; omega
  · push_neg at hc
    refine ⟨by simpa using hc.1, hc.2, ?_⟩
    intro hnil
    rw [if_neg (by push_neg; exact ⟨by simpa using hc.1, hc.2⟩), hnil, penOf_empty] at h
    omega

theorem row_pen_nonneg {sv : Solver} {s d : Nat → Int} {ar ac : Nat → Bool} {i : Nat}
    (har : ar i = true) (hs : s i ≠ 0) (hne : rowCostList sv d ac i ≠ []) :
    0 ≤ row_pen sv s d ar ac i := by
  unfold row_pen
  rw [if_neg (by push_neg; exact ⟨by simp [har], hs⟩)]
  exact penOf_nonneg hne

theorem rowCostList_ne_nil {sv : Solver} {d : Nat → Int} {ac : Nat → Bool} {i j : Nat}
    (hj : j < sv.n) (hac : ac j = true) (hd : 0 < d j) : rowCostList sv d ac i ≠ [] := by
  unfold rowCostList
  intro hnil
  rw [List.map_eq_nil] at hnil
  have : j ∈ (List.range sv.n).filter (fun j => ac j && decide (0 < d j)) :=
    List.mem_filter.mpr ⟨List.mem_range.mpr hj, by simp [hac, hd]⟩
  rw [hnil] at this
  exact absurd this (List.not_mem_nil j)

theorem colCostList_ne_nil {sv : Solver} {s : Nat → Int} {ar : Nat → Bool} {i j : Nat}
    (hi : i < sv.m) (har : ar i = true) (hs : 0 < s i) : colCostList sv s ar j ≠ [] := by
  unfold colCostList
  intro hnil
  rw [List.map_eq_nil] at hnil
  have : i ∈ (List.range sv.m).filter (fun i => ar i && decide (0 < s i)) :=
    List.mem_filter.mpr ⟨List.mem_range.mpr hi, by simp [har, hs]⟩
  rw [hnil] at this
  exact absurd this (List.not_mem_nil i)

theorem bestLine_spec (pen : Nat → Int) (flag : Bool) (init : Int × Bool × Int) :
    ∀ len, init.1 ≤ (bestLine pen len flag init).1 ∧
      (∀ k < len, pen k ≤ (bestLine pen len flag init).1) ∧
      (bestLine pen len flag init = init ∨
        ∃ k < len, bestLine pen len flag init = (pen k, flag, (k : Int)) ∧
          (∀ k' < k, pen k' < pen k) ∧ init.1 < pen k) := by
  intro len
  induction len with
  | zero =>
    refine ⟨le_rfl, by omega, Or.inl rfl⟩
  | succ len ihl =>
    obtain ⟨ih1, ih2, ih3⟩ := ihl
    have hunfold : bestLine pen (len + 1) flag init =
        (if (bestLine pen len flag init).1 < pen len then (pen len, flag, (len : Int))
          else bestLine pen len flag init) := by
      unfold bestLine
      rw [List.range_succ, List.foldl_append, List.foldl_cons, List.foldl_nil]
    rw [hunfold]
    by_cases hlt : (bestLine pen len flag init).1 < pen len
    · rw [if_pos hlt]
      refine ⟨by simpa using le_trans ih1 hlt.le, ?_, Or.inr ⟨len, by omega, rfl, ?_, ?_⟩⟩
      · intro k hk
        rcases Nat.lt_succ_iff_lt_or_eq.mp hk with hk' | rfl
        · simpa using le_trans (ih2 k hk') hlt.le
        · simp
      · intro k' hk'
        exact lt_of_le_of_lt (ih2 k' hk') hlt
      · exact lt_of_le_of_lt ih1 hlt
    · rw [if_neg hlt]
      refine ⟨ih1, ?_, ?_⟩
      · intro k hk
        rcases Nat.lt_succ_iff_lt_or_eq.mp hk with hk' | rfl
        · exact ih2 k hk'
        · exact not_lt.mp hlt
      · rcases ih3 with h | ⟨k, hk, heq, hfirst, hinit⟩
        · exact Or.inl h
        · exact Or.inr ⟨k, by omega, heq, hfirst, hinit⟩

theorem scanMin_spec (cost : Nat → Int) (elig : Nat → Bool) :
    ∀ len, (scanMin cost elig len = none ∧ ∀ k < len, elig k = false) ∨
      (∃ k < len, scanMin cost elig len = some k ∧ elig k = true ∧
        (∀ k' < len, elig k' = true → cost k ≤ cost k') ∧
        (∀ k' < k, elig k' = true → cost k < cost k')) := by
  intro len
  induction len with
  | zero => exact Or.inl ⟨rfl, by omega⟩
  | succ len ihl =>
    have hunfold : scanMin cost elig (len + 1) =
        (if elig len then
          match scanMin cost elig len with
          | none => some len
          | some b => if cost len < cost b then some len else some b
        else scanMin cost elig len) := by
      unfold scanMin
      rw [List.range_succ, List.foldl_append, List.foldl_cons, List.foldl_nil]
      rcases (List.range len).foldl _ none with _ | b <;> rfl
    rw [hunfold]
    by_cases he : elig len = true
    · rw [if_pos he]
      rcases ihl with ⟨hnone, hall⟩ | ⟨k, hk, hsome, helig, hmin, hfirst⟩
      · simp only [hnone]
        refine Or.inr ⟨len, by omega, rfl, he, ?_, ?_⟩
        · intro k' hk' he'
          rcases Nat.lt_succ_iff_lt_or_eq.mp hk' with h | rfl
          · exact absurd he' (by simp [hall k' h])
          · exact le_rfl
        · intro k' hk' he'
          exact absurd he' (by simp [hall k' hk'])
      · simp only [hsome]
        by_cases hlt : cost len < cost k
        · rw [if_pos hlt]
          refine Or.inr ⟨len, by omega, rfl, he, ?_, ?_⟩
          · intro k' hk' he'
            rcases Nat.lt_succ_iff_lt_or_eq.mp hk' with h | rfl
            · exact le_trans hlt.le (hmin k' h he')
            · exact le_rfl
          · intro k' hk' he'
            exact lt_of_lt_of_le hlt (hmin k' hk' he')
        · rw [if_neg hlt]
          refine Or.inr ⟨k, by omega, rfl, helig, ?_, hfirst⟩
          intro k' hk' he'
          rcases Nat.lt_succ_iff_lt_or_eq.mp hk' with h | rfl
          · exact hmin k' h he'
          · exact not_lt.mp hlt
    · rw [if_neg he]
      rcases ihl with ⟨hnone, hall⟩ | ⟨k, hk, hsome, helig, hmin, hfirst⟩
      · refine Or.inl ⟨hnone, ?_⟩
        intro k hk
        rcases Nat.lt_succ_iff_lt_or_eq.mp hk with h | rfl
        · exact hall k h
        · simpa using he
      · refine Or.inr ⟨k, by omega, hsome, helig, ?_, hfirst⟩
        intro k' hk' he'
        rcases Nat.lt_succ_iff_lt_or_eq.mp hk' with h | rfl
        · exact hmin k' h he'
        · exact absurd he' he

theorem rowCostList_exists {sv : Solver} {d : Nat → Int} {ac : Nat → Bool} {i : Nat}
    (h : rowCostList sv d ac i ≠ []) : ∃ j < sv.n, ac j = true ∧ 0 < d j := by
  unfold rowCostList at h
  have hf : (List.range sv.n).filter (fun j => ac j && decide (0 < d j)) ≠ [] := by
    intro h0
    rw [h0] at h
    exact h rfl
  obtain ⟨j, hj⟩ := List.exists_mem_of_ne_nil _ hf
  obtain ⟨hjr, hcond⟩ := List.mem_filter.mp hj
  rw [Bool.and_eq_true, decide_eq_true_eq] at hcond
  exact ⟨j, List.mem_range.mp hjr, hcond.1, hcond.2⟩

theorem colCostList_exists {sv : Solver} {s : Nat → Int} {ar : Nat → Bool} {j : Nat}
    (h : colCostList sv s ar j ≠ []) : ∃ i < sv.m, ar i = true ∧ 0 < s i := by
  unfold colCostList at h
  have hf : (List.range sv.m).filter (fun i => ar i && decide (0 < s i)) ≠ [] := by
    intro h0
    rw [h0] at h
    exact h rfl
  obtain ⟨i, hi⟩ := List.exists_mem_of_ne_nil _ hf
  obtain ⟨hir, hcond⟩ := List.mem_filter.mp hi
  rw [Bool.and_eq_true, decide_eq_true_eq] at hcond
  exact ⟨i, List.mem_range.mp hir, hcond.1, hcond.2⟩

/-- When the loop guard of `solve_vam` holds, the penalty selection always
finds a line (`idx != -1`) and the minimum scan in the chosen line always
finds a cell, whose row and column both still have positive remainder. -/
theorem vam_progress {sv : Solver} {st : St} {ar ac : Nat → Bool} (hnn : Nonneg sv st)
    (hg : (((List.range sv.m).any fun i => decide (0 < st.s i) && ar i) &&
        ((List.range sv.n).any fun j => decide (0 < st.d j) && ac j)) = true) :
    (vamSelect sv st.s st.d ar ac).2.2 ≠ -1 ∧
    ∃ mi mj, (if (vamSelect sv st.s st.d ar ac).2.1 then
        vamMinInRow sv st.d ac (vamSelect sv st.s st.d ar ac).2.2.toNat
      else vamMinInCol sv st.s ar (vamSelect sv st.s st.d ar ac).2.2.toNat) = some (mi, mj) ∧
      mi < sv.m ∧ mj < sv.n ∧ 0 < st.s mi ∧ 0 < st.d mj ∧ ar mi = true ∧ ac mj = true := by
  rw [Bool.and_eq_true, List.any_eq_true, List.any_eq_true] at hg
  obtain ⟨⟨i0, hi0r, hi0⟩, ⟨j0, hj0r, hj0⟩⟩ := hg
  rw [Bool.and_eq_true, decide_eq_true_eq] at hi0 hj0
  have hi0m : i0 < sv.m := List.mem_range.mp hi0r
  have hj0n : j0 < sv.n := List.mem_range.mp hj0r
  have hrp0 : 0 ≤ row_pen sv st.s st.d ar ac i0 :=
    row_pen_nonneg hi0.2 (ne_of_gt hi0.1) (rowCostList_ne_nil hj0n hj0.2 hj0.1)
  have hr1 := bestLine_spec (row_pen sv st.s st.d ar ac) true (-1, true, -1) sv.m
  have hsel := bestLine_spec (col_pen sv st.s st.d ar ac) false
    (bestLine (row_pen sv st.s st.d ar ac) sv.m true (-1, true, -1)) sv.n
  have hr1pos : 0 ≤ (bestLine (row_pen sv st.s st.d ar ac) sv.m true (-1, true, -1)).1 :=
    le_trans hrp0 (hr1.2.1 i0 hi0m)
  have hselpos : 0 ≤ (vamSelect sv st.s st.d ar ac).1 := le_trans hr1pos hsel.1
  rcases hsel.2.2 with hseleq | ⟨k, hkn, hseleq, _, _⟩
  · rcases hr1.2.2 with hr1eq | ⟨k, hkm, hr1eq, _, _⟩
    · exfalso
      unfold vamSelect at hselpos
      rw [hseleq, hr1eq] at hselpos
      simp at hselpos
    · have hselval : vamSelect sv st.s st.d ar ac =
          (row_pen sv st.s st.d ar ac k, true, (k : Int)) := by
        unfold vamSelect
        rw [hseleq, hr1eq]
      have hrpk : 0 ≤ row_pen sv st.s st.d ar ac k := by
        rw [hselval] at hselpos
        exact hselpos
      obtain ⟨hark, hsk, hlist⟩ := row_pen_cases hrpk
      refine ⟨by rw [hselval]; show (k : Int) ≠ -1; omega, ?_⟩
      obtain ⟨j1, hj1n, hacj1, hdj1⟩ := rowCostList_exists hlist
      have hskpos : 0 < st.s k := lt_of_le_of_ne (hnn.1 k hkm) (Ne.symm hsk)
      rcases scanMin_spec (fun j => sv.cost k j) (fun j => ac j && decide (0 < st.d j))
          sv.n with ⟨hnone, hall⟩ | ⟨jm, hjmn, hsome, helig, _, _⟩
      · exfalso
        have := hall j1 hj1n
        simp [hacj1, hdj1] at this
      · rw [Bool.and_eq_true, decide_eq_true_eq] at helig
        refine ⟨k, jm, ?_, hkm, hjmn, hskpos, helig.2, hark, helig.1⟩
        rw [hselval]
        simp only [if_true]
        unfold vamMinInRow
        rw [show ((k : Int)).toNat = k from Int.toNat_natCast k, hsome]
        rfl
  · have hselval : vamSelect sv st.s st.d ar ac =
        (col_pen sv st.s st.d ar ac k, false, (k : Int)) := by
      unfold vamSelect
      rw [hseleq]
    have hcpk : 0 ≤ col_pen sv st.s st.d ar ac k := by
      rw [hselval] at hselpos
      exact hselpos
    obtain ⟨hack, hdk, hlist⟩ := col_pen_cases hcpk
    refine ⟨by rw [hselval]; show (k : Int) ≠ -1; omega, ?_⟩
    obtain ⟨i1, hi1m, hari1, hsi1⟩ := colCostList_exists hlist
    have hdkpos : 0 < st.d k := lt_of_le_of_ne (hnn.2 k hkn) (Ne.symm hdk)
    rcases scanMin_spec (fun i => sv.cost i k) (fun i => ar i && decide (0 < st.s i))
        sv.m with ⟨hnone, hall⟩ | ⟨im, himm, hsome, helig, _, _⟩
    · exfalso
      have := hall i1 hi1m
      simp [hari1, hsi1] at this
    · rw [Bool.and_eq_true, decide_eq_true_eq] at helig
      refine ⟨im, k, ?_, himm, hkn, helig.2, hdkpos, helig.1, hack⟩
      rw [hselval]
      simp only [Bool.false_eq_true, if_false]
      unfold vamMinInCol
      rw [show ((k : Int)).toNat = k from Int.toNat_natCast k, hsome]
      rfl

theorem vamGo_succ_stop (sv : Solver) (fuel : Nat) (st : St) (ar ac : Nat → Bool)
    (hg : ¬ (((List.range sv.m).any fun i => decide (0 < st.s i) && ar i) &&
        ((List.range sv.n).any fun j => decide (0 < st.d j) && ac j)) = true) :
    vamGo sv (fuel + 1) st ar ac = ([], st) := by
  simp only [vamGo, if_neg hg]

theorem vamGo_succ_step (sv : Solver) (fuel : Nat) (st : St) (ar ac : Nat → Bool)
    (mi mj : Nat)
    (hg : (((List.range sv.m).any fun i => decide (0 < st.s i) && ar i) &&
        ((List.range sv.n).any fun j => decide (0 < st.d j) && ac j)) = true)
    (hidx : ¬ (vamSelect sv st.s st.d ar ac).2.2 = -1)
    (hch : (if (vamSelect sv st.s st.d ar ac).2.1 then
        vamMinInRow sv st.d ac (vamSelect sv st.s st.d ar ac).2.2.toNat
      else vamMinInCol sv st.s ar (vamSelect sv st.s st.d ar ac).2.2.toNat) = some (mi, mj)) :
    vamGo sv (fuel + 1) st ar ac =
      (⟨mi, mj, min (st.s mi) (st.d mj), applyAt st mi mj⟩ ::
        (vamGo sv fuel (applyAt st mi mj)
          (if (applyAt st mi mj).s mi = 0 then Function.update ar mi false else ar)
          (if (applyAt st mi mj).d mj = 0 then Function.update ac mj false else ac)).1,
        (vamGo sv fuel (applyAt st mi mj)
          (if (applyAt st mi mj).s mi = 0 then Function.update ar mi false else ar)
          (if (applyAt st mi mj).d mj = 0 then Function.update ac mj false else ac)).2) := by
  simp only [vamGo, if_pos hg, if_neg hidx, hch]

/-- Master induction for `solve_vam`: with fuel at least the number of
positive lines, the loop produces a valid chained trace of strictly
positive allocations, preserves all invariants, and stops only with one
side fully exhausted. -/
theorem vamGo_master (sv : Solver) : ∀ (fuel : Nat) (st : St) (ar ac : Nat → Bool),
    Nonneg sv st → AllocNonneg st → RowCons sv st → ColCons sv st → CellZero st →
    (∀ i, ar i = false → st.s i = 0) → (∀ j, ac j = false → st.d j = 0) →
    mu sv st ≤ fuel →
    stepsOk sv st (vamGo sv fuel st ar ac).1 ∧
    (vamGo sv fuel st ar ac).2 = endSt st (vamGo sv fuel st ar ac).1 ∧
    Nonneg sv (vamGo sv fuel st ar ac).2 ∧ AllocNonneg (vamGo sv fuel st ar ac).2 ∧
    RowCons sv (vamGo sv fuel st ar ac).2 ∧ ColCons sv (vamGo sv fuel st ar ac).2 ∧
    CellZero (vamGo sv fuel st ar ac).2 ∧
    ((∀ i < sv.m, (vamGo sv fuel st ar ac).2.s i = 0) ∨
      (∀ j < sv.n, (vamGo sv fuel st ar ac).2.d j = 0)) ∧
    (∀ r ∈ (vamGo sv fuel st ar ac).1, 0 < r.qty) := by
  intro fuel
  induction fuel with
  | zero =>
    intro st ar ac hnn han hrc hcc hcz har hac hfuel
    have hmu0 := mu_zero (Nat.le_zero.mp hfuel)
    simp only [vamGo]
    refine ⟨trivial, rfl, hnn, han, hrc, hcc, hcz, Or.inl ?_, by simp⟩
    intro i hi
    have h1 := hmu0.1 i hi
    have h2 := hnn.1 i hi
    omega
  | succ fuel ih =>
    intro st ar ac hnn han hrc hcc hcz har hac hfuel
    by_cases hg : (((List.range sv.m).any fun i => decide (0 < st.s i) && ar i) &&
        ((List.range sv.n).any fun j => decide (0 < st.d j) && ac j)) = true
    · obtain ⟨hidx, mi, mj, hch, him, hjn, hsi, hdj, harmi, hacmj⟩ := vam_progress hnn hg
      rw [vamGo_succ_step sv fuel st ar ac mi mj hg hidx hch]
      have hz : st.alloc mi mj = 0 := by
        by_contra hne
        rcases hcz mi mj hne with h0 | h0 <;> omega
      have hnn' := applyAt_nonneg mi mj hnn
      have han' := applyAt_allocNonneg hsi.le hdj.le han
      have hrc' := applyAt_rowCons hjn hz hrc
      have hcc' := applyAt_colCons him hz hcc
      have hcz' := applyAt_cellZero him hjn hnn hcz
      have har' : ∀ i, (if (applyAt st mi mj).s mi = 0 then Function.update ar mi false
          else ar) i = false → (applyAt st mi mj).s i = 0 := by
        intro i hi
        by_cases h0 : (applyAt st mi mj).s mi = 0
        · rw [if_pos h0] at hi
          by_cases hieq : i = mi
          · subst hieq; exact h0
          · rw [Function.update_noteq hieq] at hi
            rw [applyAt_s, if_neg hieq]
            exact har i hi
        · rw [if_neg h0] at hi
          have hieq : i ≠ mi := by
            rintro rfl
            rw [harmi] at hi
            exact Bool.noConfusion hi
          rw [applyAt_s, if_neg hieq]
          exact har i hi
      have hac' : ∀ j, (if (applyAt st mi mj).d mj = 0 then Function.update ac mj false
          else ac) j = false → (applyAt st mi mj).d j = 0 := by
        intro j hj
        by_cases h0 : (applyAt st mi mj).d mj = 0
        · rw [if_pos h0] at hj
          by_cases hjeq : j = mj
          · subst hjeq; exact h0
          · rw [Function.update_noteq hjeq] at hj
            rw [applyAt_d, if_neg hjeq]
            exact hac j hj
        · rw [if_neg h0] at hj
          have hjeq : j ≠ mj := by
            rintro rfl
            rw [hacmj] at hj
            exact Bool.noConfusion hj
          rw [applyAt_d, if_neg hjeq]
          exact hac j hj
      have hmu : mu sv (applyAt st mi mj) ≤ fuel := by
        have := mu_step_lt him hjn hsi hdj
        omega
      have ihr := ih (applyAt st mi mj)
        (if (applyAt st mi mj).s mi = 0 then Function.update ar mi false else ar)
        (if (applyAt st mi mj).d mj = 0 then Function.update ac mj false else ac)
        hnn' han' hrc' hcc' hcz' har' hac' hmu
      refine ⟨⟨him, hjn, hz, rfl, rfl, ihr.1⟩, by rw [endSt_cons]; exact ihr.2.1,
        ihr.2.2.1, ihr.2.2.2.1, ihr.2.2.2.2.1, ihr.2.2.2.2.2.1, ihr.2.2.2.2.2.2.1,
        ihr.2.2.2.2.2.2.2.1, ?_⟩
      intro r hr
      rcases List.mem_cons.mp hr with rfl | hmem
      · exact lt_min hsi hdj
      · exact ihr.2.2.2.2.2.2.2.2 r hmem
    · rw [vamGo_succ_stop sv fuel st ar ac hg]
      refine ⟨trivial, rfl, hnn, han, hrc, hcc, hcz, ?_, by simp⟩
      rw [Bool.and_eq_true] at hg
      push_neg at hg
      by_cases hrow : ((List.range sv.m).any fun i => decide (0 < st.s i) && ar i) = true
      · have hcol := hg hrow
        right
        intro j hj
        have : ¬ (decide (0 < st.d j) && ac j) = true := fun hcontra =>
          hcol (List.any_eq_true.mpr ⟨j, List.mem_range.mpr hj, hcontra⟩)
        rw [Bool.and_eq_true, decide_eq_true_eq] at this
        push_neg at this
        by_cases hdj : 0 < st.d j
        · have := this hdj
          have h0 := hac j (by simpa using this)
          exact h0
        · have h2 := hnn.2 j hj
          show st.d j = 0
          omega
      · left
        intro i hi
        have : ¬ (decide (0 < st.s i) && ar i) = true := fun hcontra =>
          hrow (List.any_eq_true.mpr ⟨i, List.mem_range.mpr hi, hcontra⟩)
        rw [Bool.and_eq_true, decide_eq_true_eq] at this
        push_neg at this
        by_cases hsi : 0 < st.s i
        · have := this hsi
          have h0 := har i (by simpa using this)
          exact h0
        · have h2 := hnn.1 i hi
          show st.s i = 0
          omega

/-- The conservation equations of the specification for one final
allocation matrix. -/
def Conserves (sv : Solver) (alloc : Nat → Nat → Int) : Prop :=
  (∀ i < sv.m, ∑ j in Finset.range sv.n, alloc i j = sv.supply i) ∧
  (∀ j < sv.n, ∑ i in Finset.range sv.m, alloc i j = sv.demand j) ∧
  (∑ i in Finset.range sv.m, ∑ j in Finset.range sv.n, alloc i j = sumR sv.supply sv.m) ∧
  (∑ i in Finset.range sv.m, ∑ j in Finset.range sv.n, alloc i j = sumR sv.demand sv.n)

theorem initSt_invs (sv : Solver) (hs : ∀ i < sv.m, 0 ≤ sv.supply i)
    (hd : ∀ j < sv.n, 0 ≤ sv.demand j) :
    Nonneg sv (initSt sv) ∧ AllocNonneg (initSt sv) ∧ RowCons sv (initSt sv) ∧
    ColCons sv (initSt sv) ∧ CellZero (initSt sv) := by
  refine ⟨⟨hs, hd⟩, fun _ _ => le_refl 0, ?_, ?_, fun i j h => absurd rfl h⟩
  · intro i hi
    simp [initSt]
  · intro j hj
    simp [initSt]

theorem remaining_balance {sv : Solver} {st : St} (hb : Balanced sv)
    (hrc : RowCons sv st) (hcc : ColCons sv st) :
    sumR st.s sv.m = sumR st.d sv.n := by
  have h1 := rowCons_sum hrc
  have h2 := colCons_sum hcc
  unfold Balanced at hb
  omega

theorem sumR_eq_list (f : Nat → Int) : ∀ k, sumR f k = ((List.range k).map f).sum := by
  intro k
  induction k with
  | zero => simp [sumR]
  | succ k ih =>
    rw [sumR_succ, List.range_succ, List.map_append, List.sum_append, ih]
    simp

theorem dummy_col_some {sv : Solver} {jd : Nat} (h : dummy_col sv = some jd) :
    jd = sv.n - 1 ∧ sv.dummy_type = some DummyType.demand := by
  unfold dummy_col at h
  by_cases hd : sv.dummy_type = some DummyType.demand
  · rw [if_pos hd] at h
    exact ⟨(Option.some.inj h).symm, hd⟩
  · rw [if_neg hd] at h
    exact Option.noConfusion h

theorem dummy_col_none_realCols {sv : Solver} (h : dummy_col sv = none) :
    realCols sv = sv.n := by
  unfold realCols
  rw [h]
  rfl

theorem dummy_col_some_realCols {sv : Solver} {jd : Nat} (h : dummy_col sv = some jd) :
    realCols sv = sv.n - 1 := by
  unfold realCols
  rw [h]
  rfl

/-- Phase one of `solve_least_cost` ends with all real demand satisfied: on a
balanced problem, its other exit condition (no eligible cell) cannot fire
while real demand remains. -/
theorem lcm_phase1_real_zero (sv : Solver) (hb : Balanced sv) {st1 : St}
    (hnn1 : Nonneg sv st1) (hrc1 : RowCons sv st1) (hcc1 : ColCons sv st1)
    (hexit : (∀ j < realCols sv, ¬ 0 < st1.d j) ∨
      find_min_cost sv st1.s st1.d (dummy_col sv) = none) :
    ∀ j < realCols sv, st1.d j = 0 := by
  intro j hj
  have hjn : j < sv.n := lt_of_lt_of_le hj (realCols_le sv)
  rcases hexit with hA | hB
  · have h1 := hnn1.2 j hjn
    have h2 := hA j hj
    omega
  · by_contra hne
    have hdj : 0 < st1.d j := lt_of_le_of_ne (hnn1.2 j hjn) (Ne.symm hne)
    have hdsum : st1.d j ≤ sumR st1.d sv.n := by
      unfold sumR
      exact Finset.single_le_sum (fun b hb' => hnn1.2 b (Finset.mem_range.mp hb'))
        (Finset.mem_range.mpr hjn)
    have hssum : 0 < sumR st1.s sv.m := by
      have := remaining_balance hb hrc1 hcc1
      omega
    have hex : ∃ i < sv.m, 0 < st1.s i := by
      by_contra hno
      push_neg at hno
      have h0 : sumR st1.s sv.m = 0 := by
        unfold sumR
        apply Finset.sum_eq_zero
        intro i hi
        have h1 := hnn1.1 i (Finset.mem_range.mp hi)
        have h2 := hno i (Finset.mem_range.mp hi)
        omega
      omega
    obtain ⟨i, him, hsi⟩ := hex
    have helig : FmcElig sv st1.s st1.d (dummy_col sv) (i, j) :=
      ⟨him, hjn, ne_of_gt hsi, ne_of_gt hdj, realCols_ne_dummy hj⟩
    exact (find_min_cost_none_iff sv st1.s st1.d (dummy_col sv)).mp hB (i, j) helig

theorem solve_least_cost_eq_some {sv : Solver} {jd : Nat} (h : dummy_col sv = some jd) :
    solve_least_cost sv =
      ((lcmGo sv (sv.m + sv.n) (initSt sv)).1 ++
        (lcmDrain sv jd (List.range sv.m) (lcmGo sv (sv.m + sv.n) (initSt sv)).2).1,
       (lcmDrain sv jd (List.range sv.m) (lcmGo sv (sv.m + sv.n) (initSt sv)).2).2) := by
  simp only [solve_least_cost, h]

theorem solve_least_cost_eq_none {sv : Solver} (h : dummy_col sv = none) :
    solve_least_cost sv = lcmGo sv (sv.m + sv.n) (initSt sv) := by
  simp only [solve_least_cost, h]

/-- Full exhaustion facts for `solve_least_cost` on a balanced non-negative
problem, used by several claims. -/
theorem lcm_final (sv : Solver) (hn : 1 ≤ sv.n) (hb : Balanced sv)
    (hs : ∀ i < sv.m, 0 ≤ sv.supply i) (hd : ∀ j < sv.n, 0 ≤ sv.demand j) :
    RowCons sv (solve_least_cost sv).2 ∧ ColCons sv (solve_least_cost sv).2 ∧
    (∀ i < sv.m, (solve_least_cost sv).2.s i = 0) ∧
    (∀ j < sv.n, (solve_least_cost sv).2.d j = 0) ∧
    stepsOk sv (initSt sv) (solve_least_cost sv).1 ∧
    (∀ r ∈ (solve_least_cost sv).1, 0 < r.qty) := by
  obtain ⟨hnn, han, hrc, hcc, hcz⟩ := initSt_invs sv hs hd
  have hl := lcmGo_master sv (sv.m + sv.n) (initSt sv) hnn han hrc hcc hcz
    (mu_le sv (initSt sv))
  obtain ⟨hsteps1, hend1, hnn1, han1, hrc1, hcc1, hcz1, hexit1, hrecs1, hph1⟩ := hl
  have hreal := lcm_phase1_real_zero sv hb hnn1 hrc1 hcc1 hexit1
  rcases hdc : dummy_col sv with _ | jd
  · rw [solve_least_cost_eq_none hdc]
    have hrcols := dummy_col_none_realCols hdc
    have hdzero : ∀ j < sv.n, (lcmGo sv (sv.m + sv.n) (initSt sv)).2.d j = 0 := by
      intro j hj
      exact hreal j (by omega)
    have hexh := exhausted_of_half hb hnn1 hrc1 hcc1 (Or.inr hdzero)
    exact ⟨hrc1, hcc1, hexh.1, hdzero, hsteps1, fun r hr => (hrecs1 r hr).1⟩
  · rw [solve_least_cost_eq_some hdc]
    obtain ⟨hjd, hdt⟩ := dummy_col_some hdc
    have hjdn : jd < sv.n := by omega
    have hrcols := dummy_col_some_realCols hdc
    have hsum0 : (lcmGo sv (sv.m + sv.n) (initSt sv)).2.d jd =
        ((List.range sv.m).map (lcmGo sv (sv.m + sv.n) (initSt sv)).2.s).sum := by
      have hbal := remaining_balance hb hrc1 hcc1
      have hsplit : sumR (lcmGo sv (sv.m + sv.n) (initSt sv)).2.d sv.n =
          sumR (lcmGo sv (sv.m + sv.n) (initSt sv)).2.d (sv.n - 1) +
          (lcmGo sv (sv.m + sv.n) (initSt sv)).2.d (sv.n - 1) := by
        have hn' : sv.n - 1 + 1 = sv.n := by omega
        calc sumR (lcmGo sv (sv.m + sv.n) (initSt sv)).2.d sv.n
            = sumR (lcmGo sv (sv.m + sv.n) (initSt sv)).2.d (sv.n - 1 + 1) := by rw [hn']
          _ = _ := sumR_succ _ _
      have hrest : sumR (lcmGo sv (sv.m + sv.n) (initSt sv)).2.d (sv.n - 1) = 0 := by
        unfold sumR
        apply Finset.sum_eq_zero
        intro j hj
        exact hreal j (by rw [hrcols]; exact Finset.mem_range.mp hj)
      rw [← sumR_eq_list]
      rw [hsplit, hrest, zero_add] at hbal
      rw [← hjd] at hbal
      omega
    have hdr := lcmDrain_master sv jd hjdn (List.range sv.m)
      (lcmGo sv (sv.m + sv.n) (initSt sv)).2 (List.nodup_range _)
      (fun i hi => List.mem_range.mp hi) hnn1 han1 hrc1 hcc1 hcz1 hsum0
    obtain ⟨hsteps2, hend2, hnn2, han2, hrc2, hcc2, hcz2, hszero, hdjd, hsout, hdout,
      hrecs2, hsub2⟩ := hdr
    refine ⟨hrc2, hcc2, ?_, ?_, ?_, ?_⟩
    · intro i hi
      exact hszero i (List.mem_range.mpr hi)
    · intro j hj
      by_cases hjeq : j = jd
      · rw [hjeq]; exact hdjd
      · rw [hdout j hjeq]
        exact hreal j (by omega)
    · exact stepsOk_append hsteps1 (by rw [← hend1]; exact hsteps2)
    · intro r hr
      rcases List.mem_append.mp hr with h1 | h1
      · exact (hrecs1 r h1).1
      · exact (hrecs2 r h1).2

/-- Full exhaustion facts for `solve_nwc` on non-negative input;
balance is only needed for the exhaustion of the second side. -/
theorem endSt_nonneg {sv : Solver} : ∀ {tr : List Step} {st : St},
    stepsOk sv st tr → Nonneg sv st → Nonneg sv (endSt st tr) := by
  intro tr
  induction tr with
  | nil => intro st _ hnn; exact hnn
  | cons r rs ih =>
    intro st h hnn
    obtain ⟨_, _, _, _, ha, hrest⟩ := h
    rw [endSt_cons]
    exact ih hrest (by rw [ha]; exact applyAt_nonneg _ _ hnn)

/-- Hypothesis-free structural facts about `solve_nwc`: a valid chained
trace from cursor `(0, 0)` and a final cursor that has just run out of
bounds. -/
theorem nwc_struct (sv : Solver) :
    stepsOk sv (initSt sv) (solve_nwc sv).1 ∧
    nwcChain sv 0 0 (solve_nwc sv).1 ∧
    (solve_nwc sv).2.1 = endSt (initSt sv) (solve_nwc sv).1 ∧
    (sv.m ≤ (solve_nwc sv).2.2.1 ∨ sv.n ≤ (solve_nwc sv).2.2.2) ∧
    (solve_nwc sv).2.2.1 ≤ sv.m ∧ (solve_nwc sv).2.2.2 ≤ sv.n ∧
    RowCons sv (solve_nwc sv).2.1 ∧ ColCons sv (solve_nwc sv).2.1 ∧
    (∀ a < (solve_nwc sv).2.2.1, (solve_nwc sv).2.1.s a = 0) ∧
    (∀ b < (solve_nwc sv).2.2.2, (solve_nwc sv).2.1.d b = 0) := by
  have hinv0 : NwcInv sv 0 0 (initSt sv) :=
    ⟨Nat.zero_le _, Nat.zero_le _, fun a ha => absurd ha (Nat.not_lt_zero a),
      fun b hb' => absurd hb' (Nat.not_lt_zero b), fun a b _ _ => rfl⟩
  have hrc : RowCons sv (initSt sv) := by intro i hi; simp [initSt]
  have hcc : ColCons sv (initSt sv) := by intro j hj; simp [initSt]
  have hm := nwcGo_master sv (sv.m + sv.n) 0 0 (initSt sv) hinv0 hrc hcc (by omega)
  obtain ⟨hsteps, hend, hchain, hoob, hinvf, hrcf, hccf⟩ := hm
  exact ⟨hsteps, hchain, hend, hoob, hinvf.1, hinvf.2.1, hrcf, hccf, hinvf.2.2.1,
    hinvf.2.2.2.1⟩

theorem nwc_final (sv : Solver)
    (hs : ∀ i < sv.m, 0 ≤ sv.supply i) (hd : ∀ j < sv.n, 0 ≤ sv.demand j) :
    stepsOk sv (initSt sv) (solve_nwc sv).1 ∧
    nwcChain sv 0 0 (solve_nwc sv).1 ∧
    (sv.m ≤ (solve_nwc sv).2.2.1 ∨ sv.n ≤ (solve_nwc sv).2.2.2) ∧
    (solve_nwc sv).2.2.1 ≤ sv.m ∧ (solve_nwc sv).2.2.2 ≤ sv.n ∧
    RowCons sv (solve_nwc sv).2.1 ∧ ColCons sv (solve_nwc sv).2.1 ∧
    Nonneg sv (solve_nwc sv).2.1 ∧
    ((∀ i < sv.m, (solve_nwc sv).2.1.s i = 0) ∨ (∀ j < sv.n, (solve_nwc sv).2.1.d j = 0)) := by
  obtain ⟨hnn, _, hrc, hcc, _⟩ := initSt_invs sv hs hd
  obtain ⟨hsteps, hchain, hend, hoob, hfim, hfjn, hrcf, hccf, hrows, hcols⟩ := nwc_struct sv
  have hnnf : Nonneg sv (solve_nwc sv).2.1 := by
    rw [hend]
    exact endSt_nonneg hsteps hnn
  refine ⟨hsteps, hchain, hoob, hfim, hfjn, hrcf, hccf, hnnf, ?_⟩
  rcases hoob with h | h
  · left
    intro i hi
    exact hrows i (by omega)
  · right
    intro j hj
    exact hcols j (by omega)


/-- Full exhaustion facts for `solve_vam` on a balanced non-negative problem. -/
theorem vam_final (sv : Solver) (hb : Balanced sv)
    (hs : ∀ i < sv.m, 0 ≤ sv.supply i) (hd : ∀ j < sv.n, 0 ≤ sv.demand j) :
    RowCons sv (solve_vam sv).2 ∧ ColCons sv (solve_vam sv).2 ∧
    (∀ i < sv.m, (solve_vam sv).2.s i = 0) ∧ (∀ j < sv.n, (solve_vam sv).2.d j = 0) ∧
    stepsOk sv (initSt sv) (solve_vam sv).1 ∧
    (∀ r ∈ (solve_vam sv).1, 0 < r.qty) := by
  obtain ⟨hnn, han, hrc, hcc, hcz⟩ := initSt_invs sv hs hd
  have hv := vamGo_master sv (sv.m + sv.n) (initSt sv) (fun _ => true) (fun _ => true)
    hnn han hrc hcc hcz (fun i hi => Bool.noConfusion hi) (fun j hj => Bool.noConfusion hj)
    (mu_le sv (initSt sv))
  obtain ⟨hsteps, hend, hnnf, hanf, hrcf, hccf, hczf, hhalf, hrecs⟩ := hv
  have hexh := exhausted_of_half hb hnnf hrcf hccf hhalf
  exact ⟨hrcf, hccf, hexh.1, hexh.2, hsteps, hrecs⟩

/-- C1: on every balanced problem with non-negative supplies, demands and
costs, each of the three solve methods produces a final allocation matrix
whose row sums equal the balanced supplies, whose column sums equal the
balanced demands, and whose grand total equals the common balanced total. -/
theorem C1_conservation (sv : Solver) (hm : 1 ≤ sv.m) (hn : 1 ≤ sv.n)
    (hb : Balanced sv)
    (hs : ∀ i < sv.m, 0 ≤ sv.supply i) (hd : ∀ j < sv.n, 0 ≤ sv.demand j)
    (hc : ∀ i < sv.m, ∀ j < sv.n, 0 ≤ sv.cost i j) :
    Conserves sv (solve_nwc sv).2.1.alloc ∧
    Conserves sv (solve_least_cost sv).2.alloc ∧
    Conserves sv (solve_vam sv).2.alloc := by
  refine ⟨?_, ?_, ?_⟩
  · obtain ⟨_, _, _, _, _, hrcf, hccf, hnnf, hhalf⟩ := nwc_final sv hs hd
    obtain ⟨h1, h2⟩ := exhausted_of_half hb hnnf hrcf hccf hhalf
    exact conservation_of_exhausted hrcf hccf h1 h2
  · obtain ⟨hrcf, hccf, h1, h2, _, _⟩ := lcm_final sv hn hb hs hd
    exact conservation_of_exhausted hrcf hccf h1 h2
  · obtain ⟨hrcf, hccf, h1, h2, _, _⟩ := vam_final sv hb hs hd
    exact conservation_of_exhausted hrcf hccf h1 h2

/-- Concrete balanced 2x2 instance (supplies 3, 4; demands 5, 2) used by the
witnesses. -/
def svA : Solver :=
  ⟨2, 2,
    fun i j => if i = 0 then (if j = 0 then 4 else 6) else (if j = 0 then 2 else 1),
    fun i => if i = 0 then 3 else if i = 1 then 4 else 0,
    fun j => if j = 0 then 5 else if j = 1 then 2 else 0, none⟩

/-- Concrete balanced instance with a zero supply entry (supplies 0, 5;
demand 5), on which `solve_nwc` records a zero-quantity step. -/
def svZ : Solver :=
  ⟨2, 1, fun _ _ => 1,
    fun i => if i = 0 then 0 else if i = 1 then 5 else 0,
    fun j => if j = 0 then 5 else 0, none⟩

theorem nwcGo_cost_irrel (sv1 sv2 : Solver) (hm : sv1.m = sv2.m) (hn : sv1.n = sv2.n) :
    ∀ (fuel i j : Nat) (st : St), nwcGo sv1 fuel i j st = nwcGo sv2 fuel i j st := by
  intro fuel
  induction fuel with
  | zero => intro i j st; rfl
  | succ fuel ih =>
    intro i j st
    simp only [nwcGo, hm, hn]
    rw [ih]

/-- C5: in `solve_nwc` the cursor starts at `(0, 0)`; each step allocates
`min(s[i], d[j])` at the cursor; the advance goes right when both lines are
exhausted and a column remains, else down, down when only the row is
exhausted, right when only the column is exhausted; the loop ends exactly
when the cursor runs past `m` or `n`; and the result never depends on the
cost matrix. -/
theorem C5_nwc (sv : Solver) :
    (∀ (s d : Nat → Int) (i j : Nat),
      (s i = 0 ∧ d j = 0 ∧ j + 1 < sv.n → nwcAdvance sv.n s d i j = (i, j + 1)) ∧
      (s i = 0 ∧ d j = 0 ∧ ¬ j + 1 < sv.n → nwcAdvance sv.n s d i j = (i + 1, j)) ∧
      (s i = 0 ∧ d j ≠ 0 → nwcAdvance sv.n s d i j = (i + 1, j)) ∧
      (s i ≠ 0 ∧ d j = 0 → nwcAdvance sv.n s d i j = (i, j + 1))) ∧
    nwcChain sv 0 0 (solve_nwc sv).1 ∧
    stepsOk sv (initSt sv) (solve_nwc sv).1 ∧
    ((sv.m ≤ (solve_nwc sv).2.2.1 ∨ sv.n ≤ (solve_nwc sv).2.2.2) ∧
      (solve_nwc sv).2.2.1 ≤ sv.m ∧ (solve_nwc sv).2.2.2 ≤ sv.n) ∧
    (∀ c2 : Nat → Nat → Int,
      solve_nwc ⟨sv.m, sv.n, c2, sv.supply, sv.demand, sv.dummy_type⟩ = solve_nwc sv) := by
  obtain ⟨hsteps, hchain, _, hoob, hfim, hfjn, _, _, _, _⟩ := nwc_struct sv
  refine ⟨?_, hchain, hsteps, ⟨hoob, hfim, hfjn⟩, ?_⟩
  · intro s d i j
    refine ⟨?_, ?_, ?_, ?_⟩
    · rintro ⟨h1, h2, h3⟩
      unfold nwcAdvance
      rw [if_pos ⟨h1, h2⟩, if_pos h3]
    · rintro ⟨h1, h2, h3⟩
      unfold nwcAdvance
      rw [if_pos ⟨h1, h2⟩, if_neg h3]
    · rintro ⟨h1, h2⟩
      unfold nwcAdvance
      rw [if_neg (by tauto), if_pos h1]
    · rintro ⟨h1, h2⟩
      unfold nwcAdvance
      rw [if_neg (by tauto), if_neg h1, if_pos h2]
  · intro c2
    show nwcGo ⟨sv.m, sv.n, c2, sv.supply, sv.demand, sv.dummy_type⟩ (sv.m + sv.n) 0 0
      (initSt sv) = nwcGo sv (sv.m + sv.n) 0 0 (initSt sv)
    rw [nwcGo_cost_irrel ⟨sv.m, sv.n, c2, sv.supply, sv.demand, sv.dummy_type⟩ sv rfl rfl]

theorem C5_nwc_witness :
    nwcAdvance svA.n (fun _ => (0 : Int)) (fun _ => (1 : Int)) 0 0 = (1, 0) :=
  ((C5_nwc svA).1 (fun _ => 0) (fun _ => 1) 0 0).2.2.1 ⟨rfl, by decide⟩

/-- C7: on a balanced non-negative problem each of the three loops genuinely
terminates (the NWC cursor runs out of bounds, and all three final states
are fully exhausted), and each solve performs at most `m + n - 1` effective
(positive-quantity) allocations. -/
theorem C7_bounds (sv : Solver) (hm : 1 ≤ sv.m) (hn : 1 ≤ sv.n) (hb : Balanced sv)
    (hs : ∀ i < sv.m, 0 ≤ sv.supply i) (hd : ∀ j < sv.n, 0 ≤ sv.demand j) :
    ((sv.m ≤ (solve_nwc sv).2.2.1 ∨ sv.n ≤ (solve_nwc sv).2.2.2) ∧
      (∀ i < sv.m, (solve_nwc sv).2.1.s i = 0) ∧
      (∀ j < sv.n, (solve_nwc sv).2.1.d j = 0)) ∧
    ((∀ i < sv.m, (solve_least_cost sv).2.s i = 0) ∧
      (∀ j < sv.n, (solve_least_cost sv).2.d j = 0)) ∧
    ((∀ i < sv.m, (solve_vam sv).2.s i = 0) ∧
      (∀ j < sv.n, (solve_vam sv).2.d j = 0)) ∧
    effCount (solve_nwc sv).1 ≤ sv.m + sv.n - 1 ∧
    effCount (solve_least_cost sv).1 ≤ sv.m + sv.n - 1 ∧
    effCount (solve_vam sv).1 ≤ sv.m + sv.n - 1 := by
  obtain ⟨hnn0, _, _, _, _⟩ := initSt_invs sv hs hd
  obtain ⟨hsteps1, _, hoob, _, _, hrcf, hccf, hnnf, hhalf⟩ := nwc_final sv hs hd
  obtain ⟨hz1, hz2⟩ := exhausted_of_half hb hnnf hrcf hccf hhalf
  obtain ⟨_, _, hl1, hl2, hstepsL, _⟩ := lcm_final sv hn hb hs hd
  obtain ⟨_, _, hv1, hv2, hstepsV, _⟩ := vam_final sv hb hs hd
  have hbound : ∀ tr, stepsOk sv (initSt sv) tr → effCount tr ≤ sv.m + sv.n - 1 := by
    intro tr htr
    have h := stepsOk_effBound htr hnn0
    have hmu := mu_le sv (initSt sv)
    rcases h with h0 | h1 <;> omega
  exact ⟨⟨hoob, hz1, hz2⟩, ⟨hl1, hl2⟩, ⟨hv1, hv2⟩, hbound _ hsteps1, hbound _ hstepsL,
    hbound _ hstepsV⟩

theorem C7_bounds_witness :
    effCount (solve_nwc svA).1 ≤ svA.m + svA.n - 1 ∧
    effCount (solve_least_cost svA).1 ≤ svA.m + svA.n - 1 ∧
    effCount (solve_vam svA).1 ≤ svA.m + svA.n - 1 :=
  have h := C7_bounds svA (by decide) (by decide) (by unfold Balanced; decide)
    (by decide) (by decide)
  ⟨h.2.2.2.1, h.2.2.2.2.1, h.2.2.2.2.2⟩

/-- C8: throughout every solve on non-negative balanced input, every
allocated quantity is non-negative, every snapshot of the remaining supply
and demand vectors is non-negative, and along the chain of snapshots both
remaining vectors are component-wise non-increasing. -/
theorem C8_monotone (sv : Solver) (hm : 1 ≤ sv.m) (hn : 1 ≤ sv.n) (hb : Balanced sv)
    (hs : ∀ i < sv.m, 0 ≤ sv.supply i) (hd : ∀ j < sv.n, 0 ≤ sv.demand j) :
    ((∀ r ∈ (solve_nwc sv).1, 0 ≤ r.qty) ∧
      (∀ x ∈ initSt sv :: (solve_nwc sv).1.map Step.after,
        (∀ i < sv.m, 0 ≤ x.s i) ∧ (∀ j < sv.n, 0 ≤ x.d j)) ∧
      List.Chain' (fun a b : St => (∀ k, b.s k ≤ a.s k) ∧ (∀ k, b.d k ≤ a.d k))
        (initSt sv :: (solve_nwc sv).1.map Step.after)) ∧
    ((∀ r ∈ (solve_least_cost sv).1, 0 ≤ r.qty) ∧
      (∀ x ∈ initSt sv :: (solve_least_cost sv).1.map Step.after,
        (∀ i < sv.m, 0 ≤ x.s i) ∧ (∀ j < sv.n, 0 ≤ x.d j)) ∧
      List.Chain' (fun a b : St => (∀ k, b.s k ≤ a.s k) ∧ (∀ k, b.d k ≤ a.d k))
        (initSt sv :: (solve_least_cost sv).1.map Step.after)) ∧
    ((∀ r ∈ (solve_vam sv).1, 0 ≤ r.qty) ∧
      (∀ x ∈ initSt sv :: (solve_vam sv).1.map Step.after,
        (∀ i < sv.m, 0 ≤ x.s i) ∧ (∀ j < sv.n, 0 ≤ x.d j)) ∧
      List.Chain' (fun a b : St => (∀ k, b.s k ≤ a.s k) ∧ (∀ k, b.d k ≤ a.d k))
        (initSt sv :: (solve_vam sv).1.map Step.after)) := by
  obtain ⟨hnn0, _, _, _, _⟩ := initSt_invs sv hs hd
  have hone : ∀ tr, stepsOk sv (initSt sv) tr →
      (∀ r ∈ tr, 0 ≤ r.qty) ∧
      (∀ x ∈ initSt sv :: tr.map Step.after,
        (∀ i < sv.m, 0 ≤ x.s i) ∧ (∀ j < sv.n, 0 ≤ x.d j)) ∧
      List.Chain' (fun a b : St => (∀ k, b.s k ≤ a.s k) ∧ (∀ k, b.d k ≤ a.d k))
        (initSt sv :: tr.map Step.after) := by
    intro tr htr
    have h := stepsOk_invariants htr hnn0
    refine ⟨fun r hr => (h.1 r hr).1, ?_, h.2.imp fun a b hab => ⟨hab.1, hab.2.1⟩⟩
    intro x hx
    rcases List.mem_cons.mp hx with rfl | hmem
    · exact ⟨hs, hd⟩
    · obtain ⟨r, hr, rfl⟩ := List.mem_map.mp hmem
      exact ⟨(h.1 r hr).2.1, (h.1 r hr).2.2⟩
  obtain ⟨hsteps1, _, _, _, _, _, _, _, _⟩ := nwc_final sv hs hd
  obtain ⟨_, _, _, _, hstepsL, _⟩ := lcm_final sv hn hb hs hd
  obtain ⟨_, _, _, _, hstepsV, _⟩ := vam_final sv hb hs hd
  exact ⟨hone _ hsteps1, hone _ hstepsL, hone _ hstepsV⟩

theorem C8_monotone_witness :
    List.Chain' (fun a b : St => (∀ k, b.s k ≤ a.s k) ∧ (∀ k, b.d k ≤ a.d k))
      (initSt svA :: (solve_nwc svA).1.map Step.after) :=
  (C8_monotone svA (by decide) (by decide) (by unfold Balanced; decide)
    (by decide) (by decide)).1.2.2

/-- The allocation step of the source is an overwrite, not an accumulation:
applied to a state whose target cell already holds 5 with
`min(s[i], d[j]) = 3`, the cell ends at 3, not at `5 + 3`. -/
theorem C9_accumulation_counterexample :
    (applyAt ⟨fun _ _ => 5, fun _ => 3, fun _ => 3⟩ 0 0).alloc 0 0 = 3 ∧
    ¬ ((applyAt ⟨fun _ _ => 5, fun _ => 3, fun _ => 3⟩ 0 0).alloc 0 0 =
        5 + min ((3 : Int)) 3) := by
  have h1 : (applyAt ⟨fun _ _ => 5, fun _ => 3, fun _ => 3⟩ 0 0).alloc 0 0 = 3 := by
    decide
  exact ⟨h1, by rw [h1]; decide⟩

/-- C9 (amended): within a single solve by any of the three methods, every
cell starts at 0 and is monotonically non-decreasing across steps — never
decreased once set — because each step writes its quantity by assignment
into a cell whose current value is still 0 (no cell is ever revisited with
a nonzero value); the write is an overwrite, not an accumulation. -/
theorem C9_cell_monotone (sv : Solver) (hm : 1 ≤ sv.m) (hn : 1 ≤ sv.n) (hb : Balanced sv)
    (hs : ∀ i < sv.m, 0 ≤ sv.supply i) (hd : ∀ j < sv.n, 0 ≤ sv.demand j) :
    (∀ i j, (initSt sv).alloc i j = 0) ∧
    List.Chain' (fun a b : St => ∀ p q, a.alloc p q ≤ b.alloc p q)
      (initSt sv :: (solve_nwc sv).1.map Step.after) ∧
    List.Chain' (fun a b : St => ∀ p q, a.alloc p q ≤ b.alloc p q)
      (initSt sv :: (solve_least_cost sv).1.map Step.after) ∧
    List.Chain' (fun a b : St => ∀ p q, a.alloc p q ≤ b.alloc p q)
      (initSt sv :: (solve_vam sv).1.map Step.after) ∧
    stepsOk sv (initSt sv) (solve_nwc sv).1 ∧
    stepsOk sv (initSt sv) (solve_least_cost sv).1 ∧
    stepsOk sv (initSt sv) (solve_vam sv).1 := by
  obtain ⟨hnn0, _, _, _, _⟩ := initSt_invs sv hs hd
  have hone : ∀ tr, stepsOk sv (initSt sv) tr →
      List.Chain' (fun a b : St => ∀ p q, a.alloc p q ≤ b.alloc p q)
        (initSt sv :: tr.map Step.after) := by
    intro tr htr
    exact (stepsOk_invariants htr hnn0).2.imp fun a b hab => hab.2.2
  obtain ⟨hsteps1, _, _, _, _, _, _, _, _⟩ := nwc_final sv hs hd
  obtain ⟨_, _, _, _, hstepsL, _⟩ := lcm_final sv hn hb hs hd
  obtain ⟨_, _, _, _, hstepsV, _⟩ := vam_final sv hb hs hd
  exact ⟨fun i j => rfl, hone _ hsteps1, hone _ hstepsL, hone _ hstepsV,
    hsteps1, hstepsL, hstepsV⟩

theorem C9_cell_monotone_witness :
    List.Chain' (fun a b : St => ∀ p q, a.alloc p q ≤ b.alloc p q)
      (initSt svA :: (solve_vam svA).1.map Step.after) :=
  (C9_cell_monotone svA (by decide) (by decide) (by unfold Balanced; decide)
    (by decide) (by decide)).2.2.2.1

/-- C10: on valid (balanced, non-negative) input every allocation step of
`solve_least_cost` and `solve_vam` has strictly positive quantity, while on
the valid instance `svZ`, whose first supply entry is 0, `solve_nwc`
records a step of quantity 0. -/
theorem C10_positive_steps (sv : Solver) (hn : 1 ≤ sv.n) (hb : Balanced sv)
    (hs : ∀ i < sv.m, 0 ≤ sv.supply i) (hd : ∀ j < sv.n, 0 ≤ sv.demand j) :
    (∀ r ∈ (solve_least_cost sv).1, 0 < r.qty) ∧
    (∀ r ∈ (solve_vam sv).1, 0 < r.qty) ∧
    (Balanced svZ ∧ (∀ i < svZ.m, 0 ≤ svZ.supply i) ∧ (∀ j < svZ.n, 0 ≤ svZ.demand j) ∧
      svZ.supply 0 = 0 ∧ 0 ∈ (solve_nwc svZ).1.map Step.qty) := by
  obtain ⟨_, _, _, _, _, hposL⟩ := lcm_final sv hn hb hs hd
  obtain ⟨_, _, _, _, _, hposV⟩ := vam_final sv hb hs hd
  refine ⟨hposL, hposV, ?_, by decide, by decide, rfl, by decide⟩
  unfold Balanced
  decide

theorem C10_positive_steps_witness :
    ((solve_least_cost svA).1.all fun r => decide (0 < r.qty)) = true :=
  List.all_eq_true.mpr fun r hr =>
    decide_eq_true ((C10_positive_steps svA (by decide) (by unfold Balanced; decide)
      (by decide) (by decide)).1 r hr)

theorem C1_conservation_witness : Conserves svA (solve_nwc svA).2.1.alloc :=
  (C1_conservation svA (by decide) (by decide) (by unfold Balanced; decide)
    (by decide) (by decide) (by decide)).1

theorem C2_balance_witness :
    (balance_problem (fun _ _ => (1 : Int)) (fun _ => 5) (fun _ => 2) 1 1).dummy_type
        = some DummyType.demand ∧
    (balance_problem (fun _ _ => (1 : Int)) (fun _ => 5) (fun _ => 2) 1 1).n = 1 + 1 ∧
    (balance_problem (fun _ _ => (1 : Int)) (fun _ => 5) (fun _ => 2) 1 1).demand 1 =
      sumR (fun _ => 5) 1 - sumR (fun _ => 2) 1 :=
  have h := C2_balance (fun _ _ => (1 : Int)) (fun _ => 5) (fun _ => 2) 1 1
  have hlt : sumR (fun _ => (2 : Int)) 1 < sumR (fun _ => (5 : Int)) 1 := by decide
  have hdt := h.2.1.mpr hlt
  ⟨hdt, (h.2.2.1 hdt).2.1, (h.2.2.1 hdt).2.2.1⟩

/-- The first-encountered row-major global minimum over cells with positive
remaining supply and demand, the dummy column excluded: the claim-level
description of one phase-one pick of `solve_least_cost`. -/
def IsLcmPick (sv : Solver) (st : St) (r : Step) : Prop :=
  (r.src < sv.m ∧ r.dst < sv.n ∧ 0 < st.s r.src ∧ 0 < st.d r.dst ∧
    some r.dst ≠ dummy_col sv) ∧
  (∀ p : Nat × Nat, p.1 < sv.m → p.2 < sv.n → 0 < st.s p.1 → 0 < st.d p.2 →
    some p.2 ≠ dummy_col sv → sv.cost r.src r.dst ≤ sv.cost p.1 p.2) ∧
  (∀ p : Nat × Nat, p.1 < sv.m → p.2 < sv.n → 0 < st.s p.1 → 0 < st.d p.2 →
    some p.2 ≠ dummy_col sv → rmBefore p (r.src, r.dst) →
    sv.cost r.src r.dst < sv.cost p.1 p.2)

/-- Claim-level chained description of phase one of `solve_least_cost`:
while real demand remains, each step allocates `min(s[i], d[j])` at the
first-encountered cheapest eligible cell. -/
def LcmPhase1Spec (sv : Solver) : St → List Step → Prop
  | _, [] => True
  | st, r :: rs => (∃ j < realCols sv, 0 < st.d j) ∧ IsLcmPick sv st r ∧
      r.qty = min (st.s r.src) (st.d r.dst) ∧ r.after = applyAt st r.src r.dst ∧
      LcmPhase1Spec sv r.after rs

theorem lcmPhase1_to_spec (sv : Solver) : ∀ (tr : List Step) (st : St),
    LcmPhase1 sv st tr → stepsOk sv st tr → Nonneg sv st → LcmPhase1Spec sv st tr := by
  intro tr
  induction tr with
  | nil => intro st _ _ _; trivial
  | cons r rs ih =>
    intro st h hsteps hnn
    obtain ⟨hguard, hfmc, hrest⟩ := h
    obtain ⟨him, hjn, hz, hq, ha, hsteps'⟩ := hsteps
    obtain ⟨helig, _, hmin, hfirst⟩ := find_min_cost_some hfmc
    refine ⟨hguard, ?_, hq, ha, ih r.after hrest hsteps'
      (by rw [ha]; exact applyAt_nonneg _ _ hnn)⟩
    refine ⟨⟨him, hjn, lt_of_le_of_ne (hnn.1 _ him) (Ne.symm helig.2.2.1),
      lt_of_le_of_ne (hnn.2 _ hjn) (Ne.symm helig.2.2.2.1), helig.2.2.2.2⟩, ?_, ?_⟩
    · intro p h1 h2 h3 h4 h5
      exact hmin p ⟨h1, h2, ne_of_gt h3, ne_of_gt h4, h5⟩
    · intro p h1 h2 h3 h4 h5 hbef
      exact hfirst p ⟨h1, h2, ne_of_gt h3, ne_of_gt h4, h5⟩ hbef

theorem lcmDrain_records (sv : Solver) (jd : Nat) : ∀ (l : List Nat) (st : St),
    (∀ r ∈ (lcmDrain sv jd l st).1, r.dst = jd ∧ 0 < r.qty) ∧
    List.Sublist ((lcmDrain sv jd l st).1.map Step.src) l := by
  intro l
  induction l with
  | nil => intro st; exact ⟨by simp [lcmDrain], by simp [lcmDrain]⟩
  | cons i rest ih =>
    intro st
    by_cases hg : 0 < st.s i ∧ 0 < st.d jd
    · have hunfold : lcmDrain sv jd (i :: rest) st =
          (⟨i, jd, min (st.s i) (st.d jd), applyAt st i jd⟩ ::
            (lcmDrain sv jd rest (applyAt st i jd)).1,
            (lcmDrain sv jd rest (applyAt st i jd)).2) := by
        simp only [lcmDrain, if_pos hg]
      rw [hunfold]
      refine ⟨?_, ?_⟩
      · intro r hr
        rcases List.mem_cons.mp hr with rfl | hmem
        · exact ⟨rfl, lt_min hg.1 hg.2⟩
        · exact (ih (applyAt st i jd)).1 r hmem
      · rw [List.map_cons]
        exact List.Sublist.cons₂ i (ih (applyAt st i jd)).2
    · have hunfold : lcmDrain sv jd (i :: rest) st = lcmDrain sv jd rest st := by
        simp only [lcmDrain, if_neg hg]
      rw [hunfold]
      exact ⟨(ih st).1, List.Sublist.trans (ih st).2 (List.sublist_cons_self _ _)⟩

/-- C4: the trace of `solve_least_cost` splits into a phase that, while any
real destination has remaining demand, allocates at the globally cheapest
eligible cell (dummy column excluded, ties to the first cell in row-major
order), followed — only once no real demand remains or no eligible cell
exists — by a drain of leftover supply into the dummy column in a single
pass over sources in index order. -/
theorem C4_least_cost (sv : Solver)
    (hs : ∀ i < sv.m, 0 ≤ sv.supply i) (hd : ∀ j < sv.n, 0 ≤ sv.demand j) :
    ∃ t1 t2, (solve_least_cost sv).1 = t1 ++ t2 ∧
      LcmPhase1Spec sv (initSt sv) t1 ∧
      (∀ r ∈ t1, some r.dst ≠ dummy_col sv) ∧
      ((∀ j < realCols sv, ¬ 0 < (endSt (initSt sv) t1).d j) ∨
        find_min_cost sv (endSt (initSt sv) t1).s (endSt (initSt sv) t1).d
          (dummy_col sv) = none) ∧
      (∀ r ∈ t2, dummy_col sv = some r.dst ∧ 0 < r.qty) ∧
      List.Sublist (t2.map Step.src) (List.range sv.m) ∧
      (dummy_col sv = none → t2 = []) := by
  obtain ⟨hnn0, han0, hrc0, hcc0, hcz0⟩ := initSt_invs sv hs hd
  have hl := lcmGo_master sv (sv.m + sv.n) (initSt sv) hnn0 han0 hrc0 hcc0 hcz0
    (mu_le sv (initSt sv))
  obtain ⟨hsteps1, hend1, hnn1, _, _, _, _, hexit1, hrecs1, hph1⟩ := hl
  have hspec1 := lcmPhase1_to_spec sv _ _ hph1 hsteps1 hnn0
  have hexitE : (∀ j < realCols sv,
        ¬ 0 < (endSt (initSt sv) (lcmGo sv (sv.m + sv.n) (initSt sv)).1).d j) ∨
      find_min_cost sv (endSt (initSt sv) (lcmGo sv (sv.m + sv.n) (initSt sv)).1).s
        (endSt (initSt sv) (lcmGo sv (sv.m + sv.n) (initSt sv)).1).d
        (dummy_col sv) = none := by
    rw [← hend1]
    exact hexit1
  have hdum1 : ∀ r ∈ (lcmGo sv (sv.m + sv.n) (initSt sv)).1, some r.dst ≠ dummy_col sv :=
    fun r hr => realCols_ne_dummy (hrecs1 r hr).2
  rcases hdc : dummy_col sv with _ | jd
  · refine ⟨(lcmGo sv (sv.m + sv.n) (initSt sv)).1, [], ?_, hspec1, hdc ▸ hdum1,
      hdc ▸ hexitE, by simp, by simp, fun _ => rfl⟩
    rw [solve_least_cost_eq_none hdc, List.append_nil]
  · refine ⟨(lcmGo sv (sv.m + sv.n) (initSt sv)).1,
      (lcmDrain sv jd (List.range sv.m) (lcmGo sv (sv.m + sv.n) (initSt sv)).2).1, ?_,
      hspec1, hdc ▸ hdum1, hdc ▸ hexitE, ?_, ?_, ?_⟩
    · rw [solve_least_cost_eq_some hdc]
    · intro r hr
      have h := (lcmDrain_records sv jd (List.range sv.m)
        (lcmGo sv (sv.m + sv.n) (initSt sv)).2).1 r hr
      rw [h.1]
      exact ⟨rfl, h.2⟩
    · exact (lcmDrain_records sv jd (List.range sv.m)
        (lcmGo sv (sv.m + sv.n) (initSt sv)).2).2
    · intro h0
      exact Option.noConfusion h0

theorem C4_least_cost_witness :
    ∃ t1 t2, (solve_least_cost svA).1 = t1 ++ t2 ∧
      LcmPhase1Spec svA (initSt svA) t1 ∧
      (∀ r ∈ t1, some r.dst ≠ dummy_col svA) ∧
      ((∀ j < realCols svA, ¬ 0 < (endSt (initSt svA) t1).d j) ∨
        find_min_cost svA (endSt (initSt svA) t1).s (endSt (initSt svA) t1).d
          (dummy_col svA) = none) ∧
      (∀ r ∈ t2, dummy_col svA = some r.dst ∧ 0 < r.qty) ∧
      List.Sublist (t2.map Step.src) (List.range svA.m) ∧
      (dummy_col svA = none → t2 = []) :=
  C4_least_cost svA (by decide) (by decide)

/-- Embedding of `_print_cost_equation`: sums `cost[i][j] * alloc[i][j]`
over cells with positive allocation, skipping the dummy column when the
dummy type is `demand`. -/
def print_cost_equation (sv : Solver) (alloc : Nat → Nat → Int) : Int :=
  ∑ i in Finset.range sv.m, ∑ j in Finset.range sv.n,
    if 0 < alloc i j ∧ ¬ (sv.dummy_type = some DummyType.demand ∧ j = sv.n - 1) then
      sv.cost i j * alloc i j
    else 0

theorem sum_if_pos_eq (c a : Nat → Int) (k : Nat) (h : ∀ j, 0 ≤ a j) :
    (∑ j in Finset.range k, if 0 < a j then c j * a j else 0) =
      ∑ j in Finset.range k, c j * a j := by
  apply Finset.sum_congr rfl
  intro j _
  by_cases hp : 0 < a j
  · rw [if_pos hp]
  · have h0 : a j = 0 := le_antisymm (not_lt.mp hp) (h j)
    rw [if_neg hp, h0, mul_zero]

theorem print_cost_demand (sv : Solver) (alloc : Nat → Nat → Int)
    (hdt : sv.dummy_type = some DummyType.demand) (hn : 1 ≤ sv.n)
    (hnn : ∀ i j, 0 ≤ alloc i j) :
    print_cost_equation sv alloc =
      ∑ i in Finset.range sv.m, ∑ j in Finset.range (sv.n - 1),
        sv.cost i j * alloc i j := by
  unfold print_cost_equation
  have hn' : sv.n - 1 + 1 = sv.n := by omega
  apply Finset.sum_congr rfl
  intro i _
  have hstep : (∑ j in Finset.range sv.n,
      if 0 < alloc i j ∧ ¬ (sv.dummy_type = some DummyType.demand ∧ j = sv.n - 1) then
        sv.cost i j * alloc i j else 0) =
      (∑ j in Finset.range (sv.n - 1),
        if 0 < alloc i j ∧ ¬ (sv.dummy_type = some DummyType.demand ∧ j = sv.n - 1) then
          sv.cost i j * alloc i j else 0) +
      (if 0 < alloc i (sv.n - 1) ∧
          ¬ (sv.dummy_type = some DummyType.demand ∧ sv.n - 1 = sv.n - 1) then
          sv.cost i (sv.n - 1) * alloc i (sv.n - 1) else 0) := by
    rw [← Finset.sum_range_succ, hn']
  rw [hstep, if_neg (fun hc => hc.2 ⟨hdt, rfl⟩), add_zero]
  apply Finset.sum_congr rfl
  intro j hj
  have hjn : j < sv.n - 1 := Finset.mem_range.mp hj
  by_cases hp : 0 < alloc i j
  · rw [if_pos ⟨hp, fun hc => by omega⟩]
  · have h0 : alloc i j = 0 := le_antisymm (not_lt.mp hp) (hnn i j)
    rw [if_neg (by tauto), h0, mul_zero]

theorem print_cost_supply (sv : Solver) (alloc : Nat → Nat → Int)
    (hdt : sv.dummy_type = some DummyType.supply) (hm : 1 ≤ sv.m)
    (hzero : ∀ j, sv.cost (sv.m - 1) j = 0) (hnn : ∀ i j, 0 ≤ alloc i j) :
    print_cost_equation sv alloc =
      ∑ i in Finset.range (sv.m - 1), ∑ j in Finset.range sv.n,
        sv.cost i j * alloc i j := by
  unfold print_cost_equation
  have hm' : sv.m - 1 + 1 = sv.m := by omega
  have hne : ∀ {j : Nat}, ¬ (sv.dummy_type = some DummyType.demand ∧ j = sv.n - 1) := by
    intro j hc
    rw [hdt] at hc
    exact DummyType.noConfusion (Option.some.inj hc.1)
  have hstep : (∑ i in Finset.range sv.m, ∑ j in Finset.range sv.n,
      if 0 < alloc i j ∧ ¬ (sv.dummy_type = some DummyType.demand ∧ j = sv.n - 1) then
        sv.cost i j * alloc i j else 0) =
      (∑ i in Finset.range (sv.m - 1), ∑ j in Finset.range sv.n,
        if 0 < alloc i j ∧ ¬ (sv.dummy_type = some DummyType.demand ∧ j = sv.n - 1) then
          sv.cost i j * alloc i j else 0) +
      (∑ j in Finset.range sv.n,
        if 0 < alloc (sv.m - 1) j ∧
            ¬ (sv.dummy_type = some DummyType.demand ∧ j = sv.n - 1) then
          sv.cost (sv.m - 1) j * alloc (sv.m - 1) j else 0) := by
    rw [← Finset.sum_range_succ, hm']
  have hlastrow : (∑ j in Finset.range sv.n,
      if 0 < alloc (sv.m - 1) j ∧
          ¬ (sv.dummy_type = some DummyType.demand ∧ j = sv.n - 1) then
        sv.cost (sv.m - 1) j * alloc (sv.m - 1) j else 0) = 0 := by
    apply Finset.sum_eq_zero
    intro j _
    by_cases hc : 0 < alloc (sv.m - 1) j ∧
        ¬ (sv.dummy_type = some DummyType.demand ∧ j = sv.n - 1)
    · rw [if_pos hc, hzero j, zero_mul]
    · rw [if_neg hc]
  rw [hstep, hlastrow, add_zero]
  apply Finset.sum_congr rfl
  intro i _
  apply Finset.sum_congr rfl
  intro j _
  by_cases hp : 0 < alloc i j
  · rw [if_pos ⟨hp, hne⟩]
  · have h0 : alloc i j = 0 := le_antisymm (not_lt.mp hp) (hnn i j)
    rw [if_neg (by tauto), h0, mul_zero]

theorem print_cost_none (sv : Solver) (alloc : Nat → Nat → Int)
    (hdt : sv.dummy_type = none) (hnn : ∀ i j, 0 ≤ alloc i j) :
    print_cost_equation sv alloc =
      ∑ i in Finset.range sv.m, ∑ j in Finset.range sv.n, sv.cost i j * alloc i j := by
  unfold print_cost_equation
  have hne : ∀ {j : Nat}, ¬ (sv.dummy_type = some DummyType.demand ∧ j = sv.n - 1) := by
    intro j hc
    rw [hdt] at hc
    exact Option.noConfusion hc.1
  apply Finset.sum_congr rfl
  intro i _
  apply Finset.sum_congr rfl
  intro j _
  by_cases hp : 0 < alloc i j
  · rw [if_pos ⟨hp, hne⟩]
  · have h0 : alloc i j = 0 := le_antisymm (not_lt.mp hp) (hnn i j)
    rw [if_neg (by tauto), h0, mul_zero]

/-- C6: the reported total of the cost evaluator equals the cost of the
real flows only: when the dummy kind is `demand` it is the double sum over
all columns except the dummy column; when the dummy kind is `supply` it
equals the double sum over the real rows (the dummy row has zero costs and
contributes nothing); with no dummy it is the full double sum. -/
theorem C6_cost_evaluator (cost : Nat → Nat → Int) (supply demand : Nat → Int)
    (m n : Nat) (alloc : Nat → Nat → Int) (hnn : ∀ i j, 0 ≤ alloc i j) :
    ((balance_problem cost supply demand m n).dummy_type = some DummyType.demand →
      print_cost_equation (balance_problem cost supply demand m n) alloc =
        ∑ i in Finset.range (balance_problem cost supply demand m n).m,
          ∑ j in Finset.range ((balance_problem cost supply demand m n).n - 1),
            (balance_problem cost supply demand m n).cost i j * alloc i j) ∧
    ((balance_problem cost supply demand m n).dummy_type = some DummyType.supply →
      print_cost_equation (balance_problem cost supply demand m n) alloc =
        ∑ i in Finset.range ((balance_problem cost supply demand m n).m - 1),
          ∑ j in Finset.range (balance_problem cost supply demand m n).n,
            (balance_problem cost supply demand m n).cost i j * alloc i j) ∧
    ((balance_problem cost supply demand m n).dummy_type = none →
      print_cost_equation (balance_problem cost supply demand m n) alloc =
        ∑ i in Finset.range (balance_problem cost supply demand m n).m,
          ∑ j in Finset.range (balance_problem cost supply demand m n).n,
            (balance_problem cost supply demand m n).cost i j * alloc i j) := by
  refine ⟨?_, ?_, ?_⟩
  · intro hdt
    apply print_cost_demand _ _ hdt _ hnn
    rcases lt_trichotomy (sumR demand n) (sumR supply m) with h1 | h1 | h1
    · rw [balance_problem_gt h1]
      show 1 ≤ n + 1
      omega
    · rw [balance_problem_eq h1.symm] at hdt
      exact Option.noConfusion hdt
    · rw [balance_problem_lt h1] at hdt
      exact absurd (Option.some.inj hdt) (by intro h; exact DummyType.noConfusion h)
  · intro hdt
    apply print_cost_supply _ _ hdt _ _ hnn
    · rcases lt_trichotomy (sumR demand n) (sumR supply m) with h1 | h1 | h1
      · rw [balance_problem_gt h1] at hdt
        exact absurd (Option.some.inj hdt) (by intro h; exact DummyType.noConfusion h)
      · rw [balance_problem_eq h1.symm] at hdt
        exact Option.noConfusion hdt
      · rw [balance_problem_lt h1]
        show 1 ≤ m + 1
        omega
    · rcases lt_trichotomy (sumR demand n) (sumR supply m) with h1 | h1 | h1
      · rw [balance_problem_gt h1] at hdt
        exact absurd (Option.some.inj hdt) (by intro h; exact DummyType.noConfusion h)
      · rw [balance_problem_eq h1.symm] at hdt
        exact Option.noConfusion hdt
      · intro j
        rw [balance_problem_lt h1]
        show (if m + 1 - 1 = m then (0 : Int) else cost (m + 1 - 1) j) = 0
        rw [if_pos (by omega)]
  · intro hdt
    exact print_cost_none _ _ hdt hnn

theorem C6_cost_evaluator_witness :
    print_cost_equation (balance_problem (fun _ _ => (3 : Int)) (fun _ => 5)
        (fun _ => 2) 1 1) (fun _ _ => 1) =
      ∑ i in Finset.range (balance_problem (fun _ _ => (3 : Int)) (fun _ => 5)
          (fun _ => 2) 1 1).m,
        ∑ j in Finset.range ((balance_problem (fun _ _ => (3 : Int)) (fun _ => 5)
            (fun _ => 2) 1 1).n - 1),
          (balance_problem (fun _ _ => (3 : Int)) (fun _ => 5) (fun _ => 2) 1 1).cost i j
            * (fun _ _ => (1 : Int)) i j :=
  (C6_cost_evaluator (fun _ _ => 3) (fun _ => 5) (fun _ => 2) 1 1 (fun _ _ => 1)
    (fun _ _ => zero_le_one)).1 (by decide)

theorem penOf_second_smallest {L : List Int} (h2 : 2 ≤ L.length) :
    ∃ c1 c2, c1 ∈ L ∧ (∀ x ∈ L, c1 ≤ x) ∧ c2 ∈ L.erase c1 ∧
      (∀ x ∈ L.erase c1, c2 ≤ x) ∧ penOf L = c2 - c1 := by
  have hsorted := List.sorted_insertionSort (· ≤ ·) L
  have hperm : List.Perm (List.insertionSort (· ≤ ·) L) L := List.perm_insertionSort _ _
  have hlen : (List.insertionSort (· ≤ ·) L).length = L.length := List.length_insertionSort _ _
  rcases hs : List.insertionSort (· ≤ ·) L with _ | ⟨a, t⟩
  · rw [hs] at hlen
    simp at hlen
    omega
  rcases t with _ | ⟨b, t'⟩
  · rw [hs] at hlen
    simp at hlen
    omega
  rw [hs] at hsorted hperm
  have hfirst := (List.sorted_cons.mp hsorted).1
  have hsorted2 := (List.sorted_cons.mp hsorted).2
  have hsecond := (List.sorted_cons.mp hsorted2).1
  have hmem_a : a ∈ L := hperm.mem_iff.mp (List.mem_cons_self _ _)
  have hperm_erase : List.Perm (b :: t') (L.erase a) := by
    have h1 := hperm.erase a
    rw [List.erase_cons_head] at h1
    exact h1
  refine ⟨a, b, hmem_a, ?_, ?_, ?_, ?_⟩
  · intro x hx
    have hx' : x ∈ a :: b :: t' := hperm.mem_iff.mpr hx
    rcases List.mem_cons.mp hx' with rfl | h
    · exact le_rfl
    · exact hfirst x h
  · exact hperm_erase.mem_iff.mp (List.mem_cons_self _ _)
  · intro x hx
    have hx' : x ∈ b :: t' := hperm_erase.mem_iff.mpr hx
    rcases List.mem_cons.mp hx' with rfl | h
    · exact le_rfl
    · exact hsecond x h
  · unfold penOf
    rw [if_pos h2, hs]
    simp [List.getD_cons_succ, List.getD_cons_zero]

theorem penOf_single {cs : List Int} (h : cs.length = 1) : penOf cs = 0 := by
  unfold penOf
  rw [if_neg (by omega), if_pos h]

theorem row_pen_eq {sv : Solver} {s d : Nat → Int} {ar ac : Nat → Bool} {i : Nat}
    (har : ar i = true) (hsi : 0 < s i) :
    row_pen sv s d ar ac i = penOf (rowCostList sv d ac i) := by
  unfold row_pen
  rw [if_neg]
  push_neg
  exact ⟨by simp [har], by omega⟩

theorem col_pen_eq {sv : Solver} {s d : Nat → Int} {ar ac : Nat → Bool} {j : Nat}
    (hac : ac j = true) (hdj : 0 < d j) :
    col_pen sv s d ar ac j = penOf (colCostList sv s ar j) := by
  unfold col_pen
  rw [if_neg]
  push_neg
  exact ⟨by simp [hac], by omega⟩

theorem rowCostList_length (sv : Solver) (d : Nat → Int) (ac : Nat → Bool) (i : Nat) :
    (rowCostList sv d ac i).length =
      ((List.range sv.n).filter fun j => ac j && decide (0 < d j)).length :=
  List.length_map _ _

theorem colCostList_length (sv : Solver) (s : Nat → Int) (ar : Nat → Bool) (j : Nat) :
    (colCostList sv s ar j).length =
      ((List.range sv.m).filter fun i => ar i && decide (0 < s i)).length :=
  List.length_map _ _

theorem vamSelect_spec (sv : Solver) (s d : Nat → Int) (ar ac : Nat → Bool) :
    (∀ i < sv.m, row_pen sv s d ar ac i ≤ (vamSelect sv s d ar ac).1) ∧
    (∀ j < sv.n, col_pen sv s d ar ac j ≤ (vamSelect sv s d ar ac).1) ∧
    ((vamSelect sv s d ar ac).2.1 = true → ¬ (vamSelect sv s d ar ac).2.2 = -1 →
      ∃ k < sv.m, vamSelect sv s d ar ac = (row_pen sv s d ar ac k, true, (k : Int)) ∧
        ∀ i' < k, row_pen sv s d ar ac i' < row_pen sv s d ar ac k) ∧
    ((vamSelect sv s d ar ac).2.1 = false →
      ∃ k < sv.n, vamSelect sv s d ar ac = (col_pen sv s d ar ac k, false, (k : Int)) ∧
        (∀ i < sv.m, row_pen sv s d ar ac i < col_pen sv s d ar ac k) ∧
        ∀ j' < k, col_pen sv s d ar ac j' < col_pen sv s d ar ac k) := by
  have hr1 := bestLine_spec (row_pen sv s d ar ac) true (-1, true, -1) sv.m
  have hsel := bestLine_spec (col_pen sv s d ar ac) false
    (bestLine (row_pen sv s d ar ac) sv.m true (-1, true, -1)) sv.n
  have hveq : vamSelect sv s d ar ac = bestLine (col_pen sv s d ar ac) sv.n false
      (bestLine (row_pen sv s d ar ac) sv.m true (-1, true, -1)) := rfl
  refine ⟨?_, ?_, ?_, ?_⟩
  · intro i hi
    rw [hveq]
    exact le_trans (hr1.2.1 i hi) hsel.1
  · intro j hj
    rw [hveq]
    exact hsel.2.1 j hj
  · intro hflag hidx
    rcases hsel.2.2 with hse | ⟨k, hk, hse, _, _⟩
    · rcases hr1.2.2 with hre | ⟨k, hk, hre, hfirst, _⟩
      · exfalso
        apply hidx
        rw [hveq, hse, hre]
      · exact ⟨k, hk, by rw [hveq, hse, hre], hfirst⟩
    · exfalso
      have hff : (vamSelect sv s d ar ac).2.1 = false := by rw [hveq, hse]
      rw [hflag] at hff
      exact Bool.noConfusion hff
  · intro hflag
    rcases hsel.2.2 with hse | ⟨k, hk, hse, hfirst, hgt⟩
    · exfalso
      rcases hr1.2.2 with hre | ⟨k, hk, hre, _, _⟩
      · have htt : (vamSelect sv s d ar ac).2.1 = true := by rw [hveq, hse, hre]
        rw [hflag] at htt
        exact Bool.noConfusion htt
      · have htt : (vamSelect sv s d ar ac).2.1 = true := by rw [hveq, hse, hre]
        rw [hflag] at htt
        exact Bool.noConfusion htt
    · refine ⟨k, hk, by rw [hveq, hse], ?_, hfirst⟩
      intro i hi
      exact lt_of_le_of_lt (hr1.2.1 i hi) hgt

theorem vamMinInRow_spec (sv : Solver) (d : Nat → Int) (ac : Nat → Bool) (i : Nat) :
    ((∃ j < sv.n, ac j = true ∧ 0 < d j) → ∃ mj, vamMinInRow sv d ac i = some (i, mj)) ∧
    (∀ mi mj, vamMinInRow sv d ac i = some (mi, mj) → mi = i ∧ mj < sv.n ∧
      ac mj = true ∧ 0 < d mj ∧
      (∀ j < sv.n, ac j = true → 0 < d j → sv.cost i mj ≤ sv.cost i j) ∧
      (∀ j < mj, ac j = true → 0 < d j → sv.cost i mj < sv.cost i j)) := by
  have hspec := scanMin_spec (fun j => sv.cost i j) (fun j => ac j && decide (0 < d j)) sv.n
  constructor
  · rintro ⟨j0, hj0, hac0, hd0⟩
    rcases hspec with ⟨_, hall⟩ | ⟨k, _, hsome, _, _, _⟩
    · exfalso
      have hcontra := hall j0 hj0
      simp [hac0, hd0] at hcontra
    · exact ⟨k, by unfold vamMinInRow; rw [hsome]; rfl⟩
  · intro mi mj h
    unfold vamMinInRow at h
    rcases hspec with ⟨hnone, _⟩ | ⟨k, hk, hsome, helig, hmin, hfirst⟩
    · rw [hnone] at h
      exact Option.noConfusion h
    · rw [hsome] at h
      have hinj : (i, k) = (mi, mj) := Option.some.inj h
      have hik : i = mi := congrArg Prod.fst hinj
      have hkj : k = mj := congrArg Prod.snd hinj
      subst hik
      subst hkj
      rw [Bool.and_eq_true, decide_eq_true_eq] at helig
      refine ⟨rfl, hk, helig.1, helig.2, ?_, ?_⟩
      · intro j hj hac hd
        exact hmin j hj (by simp [hac, hd])
      · intro j hj hac hd
        exact hfirst j hj (by simp [hac, hd])

theorem vamMinInCol_spec (sv : Solver) (s : Nat → Int) (ar : Nat → Bool) (j : Nat) :
    ((∃ i < sv.m, ar i = true ∧ 0 < s i) → ∃ mi, vamMinInCol sv s ar j = some (mi, j)) ∧
    (∀ mi mj, vamMinInCol sv s ar j = some (mi, mj) → mj = j ∧ mi < sv.m ∧
      ar mi = true ∧ 0 < s mi ∧
      (∀ i < sv.m, ar i = true → 0 < s i → sv.cost mi j ≤ sv.cost i j) ∧
      (∀ i < mi, ar i = true → 0 < s i → sv.cost mi j < sv.cost i j)) := by
  have hspec := scanMin_spec (fun i => sv.cost i j) (fun i => ar i && decide (0 < s i)) sv.m
  constructor
  · rintro ⟨i0, hi0, har0, hs0⟩
    rcases hspec with ⟨_, hall⟩ | ⟨k, _, hsome, _, _, _⟩
    · exfalso
      have hcontra := hall i0 hi0
      simp [har0, hs0] at hcontra
    · exact ⟨k, by unfold vamMinInCol; rw [hsome]; rfl⟩
  · intro mi mj h
    unfold vamMinInCol at h
    rcases hspec with ⟨hnone, _⟩ | ⟨k, hk, hsome, helig, hmin, hfirst⟩
    · rw [hnone] at h
      exact Option.noConfusion h
    · rw [hsome] at h
      have hinj : (k, j) = (mi, mj) := Option.some.inj h
      have hik : k = mi := congrArg Prod.fst hinj
      have hkj : j = mj := congrArg Prod.snd hinj
      subst hik
      subst hkj
      rw [Bool.and_eq_true, decide_eq_true_eq] at helig
      refine ⟨rfl, hk, helig.1, helig.2, ?_, ?_⟩
      · intro i hi har hs
        exact hmin i hi (by simp [har, hs])
      · intro i hi har hs
        exact hfirst i hi (by simp [har, hs])

/-- Chained description of the `solve_vam` trace: each record is at the cell
chosen by the penalty-selection / minimum-cell pipeline of its pre-state,
allocates `min(s[i], d[j])`, and exhausted lines are deactivated. -/
def VamChain (sv : Solver) : St → (Nat → Bool) → (Nat → Bool) → List Step → Prop
  | _, _, _, [] => True
  | st, ar, ac, r :: rs =>
      ¬ (vamSelect sv st.s st.d ar ac).2.2 = -1 ∧
      (if (vamSelect sv st.s st.d ar ac).2.1 then
          vamMinInRow sv st.d ac (vamSelect sv st.s st.d ar ac).2.2.toNat
        else vamMinInCol sv st.s ar (vamSelect sv st.s st.d ar ac).2.2.toNat)
        = some (r.src, r.dst) ∧
      r.qty = min (st.s r.src) (st.d r.dst) ∧ r.after = applyAt st r.src r.dst ∧
      VamChain sv r.after
        (if r.after.s r.src = 0 then Function.update ar r.src false else ar)
        (if r.after.d r.dst = 0 then Function.update ac r.dst false else ac) rs

theorem vamGo_chain (sv : Solver) : ∀ (fuel : Nat) (st : St) (ar ac : Nat → Bool),
    Nonneg sv st → VamChain sv st ar ac (vamGo sv fuel st ar ac).1 := by
  intro fuel
  induction fuel with
  | zero => intro st ar ac _; exact trivial
  | succ fuel ih =>
    intro st ar ac hnn
    by_cases hg : (((List.range sv.m).any fun i => decide (0 < st.s i) && ar i) &&
        ((List.range sv.n).any fun j => decide (0 < st.d j) && ac j)) = true
    · obtain ⟨hidx, mi, mj, hch, _, _, _, _, _, _⟩ := vam_progress hnn hg
      rw [vamGo_succ_step sv fuel st ar ac mi mj hg hidx hch]
      exact ⟨hidx, hch, rfl, rfl, ih _ _ _ (applyAt_nonneg mi mj hnn)⟩
    · rw [vamGo_succ_stop sv fuel st ar ac hg]
      exact trivial

/-- C3: the penalty, selection and in-line minimum rules of `solve_vam`:
an active row with positive remaining supply and at least two active
positive columns gets the difference between its second-smallest and
smallest active cost; exactly one such column gives penalty 0; an exhausted
or inactive line keeps `-1`; columns are symmetric; the selected line
attains the maximum penalty, rows are scanned before columns and a later
line overrides only on strictly greater penalty; inside the selected line
the minimum-cost active cell wins with first-encounter tie-break; and the
`solve_vam` trace follows exactly this pipeline. -/
theorem C3_vam_rules (sv : Solver)
    (hs : ∀ i < sv.m, 0 ≤ sv.supply i) (hd : ∀ j < sv.n, 0 ≤ sv.demand j) :
    (∀ (s d : Nat → Int) (ar ac : Nat → Bool) (i : Nat), ar i = true → 0 < s i →
      (2 ≤ ((List.range sv.n).filter fun j => ac j && decide (0 < d j)).length →
        ∃ c1 c2, c1 ∈ rowCostList sv d ac i ∧ (∀ x ∈ rowCostList sv d ac i, c1 ≤ x) ∧
          c2 ∈ (rowCostList sv d ac i).erase c1 ∧
          (∀ x ∈ (rowCostList sv d ac i).erase c1, c2 ≤ x) ∧
          row_pen sv s d ar ac i = c2 - c1) ∧
      (((List.range sv.n).filter fun j => ac j && decide (0 < d j)).length = 1 →
        row_pen sv s d ar ac i = 0)) ∧
    (∀ (s d : Nat → Int) (ar ac : Nat → Bool) (i : Nat), ar i = false ∨ s i = 0 →
      row_pen sv s d ar ac i = -1) ∧
    (∀ (s d : Nat → Int) (ar ac : Nat → Bool) (j : Nat), ac j = true → 0 < d j →
      (2 ≤ ((List.range sv.m).filter fun i => ar i && decide (0 < s i)).length →
        ∃ c1 c2, c1 ∈ colCostList sv s ar j ∧ (∀ x ∈ colCostList sv s ar j, c1 ≤ x) ∧
          c2 ∈ (colCostList sv s ar j).erase c1 ∧
          (∀ x ∈ (colCostList sv s ar j).erase c1, c2 ≤ x) ∧
          col_pen sv s d ar ac j = c2 - c1) ∧
      (((List.range sv.m).filter fun i => ar i && decide (0 < s i)).length = 1 →
        col_pen sv s d ar ac j = 0)) ∧
    (∀ (s d : Nat → Int) (ar ac : Nat → Bool) (j : Nat), ac j = false ∨ d j = 0 →
      col_pen sv s d ar ac j = -1) ∧
    (∀ (s d : Nat → Int) (ar ac : Nat → Bool),
      (∀ i < sv.m, row_pen sv s d ar ac i ≤ (vamSelect sv s d ar ac).1) ∧
      (∀ j < sv.n, col_pen sv s d ar ac j ≤ (vamSelect sv s d ar ac).1) ∧
      ((vamSelect sv s d ar ac).2.1 = true → ¬ (vamSelect sv s d ar ac).2.2 = -1 →
        ∃ k < sv.m, vamSelect sv s d ar ac = (row_pen sv s d ar ac k, true, (k : Int)) ∧
          ∀ i' < k, row_pen sv s d ar ac i' < row_pen sv s d ar ac k) ∧
      ((vamSelect sv s d ar ac).2.1 = false →
        ∃ k < sv.n, vamSelect sv s d ar ac = (col_pen sv s d ar ac k, false, (k : Int)) ∧
          (∀ i < sv.m, row_pen sv s d ar ac i < col_pen sv s d ar ac k) ∧
          ∀ j' < k, col_pen sv s d ar ac j' < col_pen sv s d ar ac k)) ∧
    (∀ (d : Nat → Int) (ac : Nat → Bool) (i : Nat),
      ((∃ j < sv.n, ac j = true ∧ 0 < d j) → ∃ mj, vamMinInRow sv d ac i = some (i, mj)) ∧
      (∀ mi mj, vamMinInRow sv d ac i = some (mi, mj) → mi = i ∧ mj < sv.n ∧
        ac mj = true ∧ 0 < d mj ∧
        (∀ j < sv.n, ac j = true → 0 < d j → sv.cost i mj ≤ sv.cost i j) ∧
        (∀ j < mj, ac j = true → 0 < d j → sv.cost i mj < sv.cost i j))) ∧
    (∀ (s : Nat → Int) (ar : Nat → Bool) (j : Nat),
      ((∃ i < sv.m, ar i = true ∧ 0 < s i) → ∃ mi, vamMinInCol sv s ar j = some (mi, j)) ∧
      (∀ mi mj, vamMinInCol sv s ar j = some (mi, mj) → mj = j ∧ mi < sv.m ∧
        ar mi = true ∧ 0 < s mi ∧
        (∀ i < sv.m, ar i = true → 0 < s i → sv.cost mi j ≤ sv.cost i j) ∧
        (∀ i < mi, ar i = true → 0 < s i → sv.cost mi j < sv.cost i j))) ∧
    VamChain sv (initSt sv) (fun _ => true) (fun _ => true) (solve_vam sv).1 := by
  refine ⟨?_, ?_, ?_, ?_, fun s d ar ac => vamSelect_spec sv s d ar ac,
    fun d ac i => vamMinInRow_spec sv d ac i, fun s ar j => vamMinInCol_spec sv s ar j,
    vamGo_chain sv (sv.m + sv.n) (initSt sv) (fun _ => true) (fun _ => true) ⟨hs, hd⟩⟩
  · intro s d ar ac i har hsi
    rw [row_pen_eq har hsi]
    constructor
    · intro h2
      exact penOf_second_smallest (by rw [rowCostList_length]; exact h2)
    · intro h1
      exact penOf_single (by rw [rowCostList_length]; exact h1)
  · intro s d ar ac i h
    unfold row_pen
    rw [if_pos h]
  · intro s d ar ac j hac hdj
    rw [col_pen_eq hac hdj]
    constructor
    · intro h2
      exact penOf_second_smallest (by rw [colCostList_length]; exact h2)
    · intro h1
      exact penOf_single (by rw [colCostList_length]; exact h1)
  · intro s d ar ac j h
    unfold col_pen
    rw [if_pos h]

theorem C3_vam_rules_witness :
    row_pen svA (fun _ => 1) (fun _ => 1) (fun _ => false) (fun _ => true) 0 = -1 :=
  (C3_vam_rules svA (by decide) (by decide)).2.1 (fun _ => 1) (fun _ => 1)
    (fun _ => false) (fun _ => true) 0 (Or.inl rfl)

end TransportOR
